import Mathlib

/-!
# Verification of the issue-migrator attachment pipeline

Shallow embedding of the Go backend of `zacker330/issue-migrator`
(`backend/handlers/migrate.go`), covering the content scanner
(`findAllAttachments`), the rewriter inside `processAttachments`, the
GitLab upload response handling (`uploadFileToGitLab`), the magic-byte
sniffer (`detectFileExtension`), the GitLab-to-GitHub processing
(`processGitLabToGitHub`, `fixGitLabAttachmentURLs`,
`findGitLabAttachments`) and the two orchestrators
(`migrateGHtoGLWithFiles`, `migrateGLtoGHWithFiles`).

Strings are modelled as `List Char` (Go strings are byte slices; all
reasoning here is over their character content).  Network effects are
modelled by explicit oracle records (`AttachEnv`, `GLEnv`, `GHGLEnv`,
`GLGHEnv`); everything else is translated directly from the source.
Go's regular expressions in this file are all of a restricted shape
(literals and greedy character-class quantifiers), embedded by a small
backtracking matcher with Go's leftmost-first semantics.
-/

set_option maxRecDepth 10000

abbrev Str := List Char

/-- Convert a Lean string literal to the `List Char` model. -/
def str (s : String) : Str := s.data

/-- Go `strings.Contains`: `pat` occurs as a contiguous substring of `s`. -/
def containsSub : Str → Str → Bool
  | [], pat => pat.isEmpty
  | s@(_ :: rest), pat => pat.isPrefixOf s || containsSub rest pat

/-- Fueled core of Go `strings.ReplaceAll` for a nonempty pattern:
scan left to right, replace each leftmost occurrence, continue after
the replacement (the inserted text is not rescanned). -/
def replaceAllAux (old new : Str) : Nat → Str → Str
  | 0, s => s
  | _ + 1, [] => []
  | fuel + 1, s@(c :: rest) =>
    if old.isPrefixOf s then new ++ replaceAllAux old new fuel (s.drop old.length)
    else c :: replaceAllAux old new fuel rest

/-- Go `strings.ReplaceAll`.  For an empty pattern Go inserts `new`
before every rune and after the last one. -/
def replaceAll (s old new : Str) : Str :=
  match old with
  | [] => new ++ s.flatMap (fun c => c :: new)
  | _ :: _ => replaceAllAux old new s.length s

/-- Fueled core of Go `strings.Split` for a nonempty separator. -/
def splitAux (sep : Str) : Nat → Str → Str → List Str
  | 0, cur, s => [cur ++ s]
  | fuel + 1, cur, s =>
    if sep.isPrefixOf s then cur :: splitAux sep fuel [] (s.drop sep.length)
    else
      match s with
      | [] => [cur]
      | c :: t => splitAux sep fuel (cur ++ [c]) t

/-- Go `strings.Split` (count `-1`).  An empty separator splits into
single runes. -/
def splitSub (s sep : Str) : List Str :=
  match sep with
  | [] => s.map (fun c => [c])
  | _ :: _ => splitAux sep (s.length + 1) [] s

/-- Number of (possibly overlapping) occurrence positions of `pat` in `s`. -/
def countOcc (s pat : Str) : Nat :=
  (List.range (s.length + 1)).countP (fun i => pat.isPrefixOf (s.drop i))

/-- Decimal digit character for `n % 10`-style values. -/
def digitChar10 (n : Nat) : Char :=
  match n with
  | 0 => '0' | 1 => '1' | 2 => '2' | 3 => '3' | 4 => '4'
  | 5 => '5' | 6 => '6' | 7 => '7' | 8 => '8' | _ => '9'

/-- Fueled decimal rendering of a natural number (Go `fmt.Sprintf("%d", n)`). -/
def natDigitsAux : Nat → Nat → Str
  | 0, _ => []
  | fuel + 1, n =>
    if n < 10 then [digitChar10 n]
    else natDigitsAux fuel (n / 10) ++ [digitChar10 (n % 10)]

/-- Decimal rendering of a natural number. -/
def natDigits (n : Nat) : Str := natDigitsAux (n + 1) n

-- Basic lemmas about the string infrastructure.

theorem containsSub_iff (s pat : Str) :
    containsSub s pat = true ↔ ∃ a b, s = a ++ pat ++ b := by
  induction s with
  | nil =>
    simp only [containsSub, List.isEmpty_iff]
    constructor
    · rintro rfl; exact ⟨[], [], rfl⟩
    · rintro ⟨a, b, h⟩
      rcases List.append_eq_nil.mp ((List.append_eq_nil).mp h.symm).1 with ⟨-, h2⟩
      exact h2
  | cons c rest ih =>
    simp only [containsSub, Bool.or_eq_true]
    constructor
    · rintro (h | h)
      · rcases List.isPrefixOf_iff_prefix.mp h with ⟨b, hb⟩
        exact ⟨[], b, by simp [← hb]⟩
      · rcases ih.mp h with ⟨a, b, hb⟩
        exact ⟨c :: a, b, by simp [hb]⟩
    · rintro ⟨a, b, hab⟩
      match a, hab with
      | [], hab =>
        left
        exact List.isPrefixOf_iff_prefix.mpr ⟨b, by simpa using hab.symm⟩
      | a0 :: a', hab =>
        right
        refine ih.mpr ⟨a', b, ?_⟩
        have h2 : c = a0 ∧ rest = a' ++ (pat ++ b) := by simpa using hab
        simpa using h2.2

theorem containsSub_of_infix {s pat : Str} (h : ∃ a b, s = a ++ pat ++ b) :
    containsSub s pat = true := (containsSub_iff s pat).mpr h

/-- If a nonempty pattern occurs in `s`, its head character occurs in `s`. -/
theorem mem_of_containsSub {s pat : Str} {c : Char}
    (h : containsSub s pat = true) (hc : c ∈ pat) : c ∈ s := by
  rcases (containsSub_iff s pat).mp h with ⟨a, b, rfl⟩
  simp [hc]

/-- Monotonicity: an occurrence inside an infix is an occurrence. -/
theorem containsSub_of_containsSub_infix {s t pat : Str}
    (hinf : ∃ a b, s = a ++ t ++ b) (h : containsSub t pat = true) :
    containsSub s pat = true := by
  rcases hinf with ⟨a, b, rfl⟩
  rcases (containsSub_iff t pat).mp h with ⟨x, y, rfl⟩
  exact containsSub_of_infix ⟨a ++ x, y ++ b, by simp⟩

/-- A pattern whose head character does not occur in `s` does not occur in `s`. -/
theorem containsSub_eq_false_of_head_not_mem {s : Str} {c : Char} {p : Str}
    (h : c ∉ s) : containsSub s (c :: p) = false := by
  by_contra hne
  exact h (mem_of_containsSub (by simpa using Bool.of_not_eq_false hne) (List.mem_cons_self c p))

theorem replaceAllAux_fuel {old new : Str} (hold : old ≠ []) :
    ∀ f g s, s.length ≤ f → s.length ≤ g →
      replaceAllAux old new f s = replaceAllAux old new g s := by
  have holdlen : 1 ≤ old.length := List.length_pos.mpr hold
  intro f
  induction f using Nat.strong_induction_on with
  | _ f ih =>
    intro g s hf hg
    match f, g, s with
    | f, g, [] =>
      match f, g with
      | 0, 0 => rfl
      | 0, _ + 1 => rfl
      | _ + 1, 0 => rfl
      | _ + 1, _ + 1 => rfl
    | f + 1, g + 1, c :: rest =>
      simp only [replaceAllAux]
      by_cases hp : old.isPrefixOf (c :: rest)
      · rw [if_pos hp, if_pos hp]
        congr 1
        have hlen : ((c :: rest).drop old.length).length ≤ f := by
          rw [List.length_drop]
          simp only [List.length_cons] at hf ⊢
          omega
        have hleng : ((c :: rest).drop old.length).length ≤ g := by
          rw [List.length_drop]
          simp only [List.length_cons] at hg ⊢
          omega
        exact ih f (by omega) g _ hlen hleng
      · rw [if_neg hp, if_neg hp]
        congr 1
        simp only [List.length_cons] at hf hg
        exact ih f (by omega) g rest (by omega) (by omega)

/-- If the pattern does not occur in `s`, `replaceAll` is the identity. -/
theorem replaceAll_of_not_contains {s old new : Str}
    (hold : old ≠ []) (h : containsSub s old = false) :
    replaceAll s old new = s := by
  match old, hold with
  | o0 :: old', _ =>
    simp only [replaceAll]
    suffices haux : ∀ f s, s.length ≤ f → containsSub s (o0 :: old') = false →
        replaceAllAux (o0 :: old') new f s = s by
      exact haux s.length s le_rfl h
    intro f
    induction f with
    | zero => intro s hs _; simp [replaceAllAux]
    | succ f ih =>
      intro s hs hc
      match s with
      | [] => rfl
      | c :: rest =>
        simp only [containsSub, Bool.or_eq_false_iff] at hc
        simp only [replaceAllAux]
        rw [if_neg (by simp [hc.1])]
        congr 1
        simp only [List.length_cons] at hs
        exact ih rest (by omega) hc.2

-- ## A small regex engine
--
-- Every regular expression in `migrate.go` is a sequence of literals and
-- greedy character-class quantifiers (star, plus, or a single character),
-- with capture groups wrapping single class-runs.  The matcher below
-- implements Go's leftmost-first semantics for exactly this shape:
-- a greedy quantifier first takes the maximal run and backtracks one
-- character at a time.

/-- Quantifier of a character-class piece. -/
inductive Quant where
  | star : Quant
  | plus : Quant
  | once : Quant
deriving DecidableEq, Repr

/-- One piece of a restricted regular expression: a literal, or a greedy
character class with a quantifier; `grp` marks a capture group. -/
inductive Piece where
  | lit (cs : Str) : Piece
  | cls (p : Char → Bool) (q : Quant) (grp : Bool) : Piece

/-- Backtracking helper: try to continue with `next` after taking `k`,
`k - 1`, ..., `lo` characters (greedy order). -/
def tryTake (g : Bool) (next : Str → Option (List Str × Str)) (s : Str) (lo : Nat) :
    Nat → Option (List Str × Str)
  | 0 =>
    if lo = 0 then
      match next s with
      | some (caps, r) => some ((if g then [([] : Str)] else []) ++ caps, r)
      | none => none
    else none
  | k + 1 =>
    if k + 1 < lo then none
    else
      match next (s.drop (k + 1)) with
      | some (caps, r) => some ((if g then [s.take (k + 1)] else []) ++ caps, r)
      | none => tryTake g next s lo k

/-- Match a piece list at the start of `s`; returns the captured groups in
order, and the rest of the string after the match.  Backtracking follows
Go's (leftmost-first, greedy) priority order. -/
def matchPieces : List Piece → Str → Option (List Str × Str)
  | [], s => some ([], s)
  | .lit cs :: ps, s =>
    if cs.isPrefixOf s then matchPieces ps (s.drop cs.length) else none
  | .cls p q g :: ps, s =>
    let run := s.takeWhile p
    let lo : Nat := match q with | .star => 0 | _ => 1
    let hi : Nat := match q with | .once => min 1 run.length | _ => run.length
    if hi < lo then none else tryTake g (matchPieces ps) s lo hi

/-- Fueled core of Go `FindAllStringSubmatch` (n = -1): repeatedly find
the leftmost match, record `(match, groups)`, continue after the match.
For an empty-width match Go records it and advances one rune. -/
def findAllAux (ps : List Piece) : Nat → Str → List (Str × List Str)
  | 0, _ => []
  | fuel + 1, s =>
    match matchPieces ps s with
    | some (caps, rest) =>
      let m := s.take (s.length - rest.length)
      if m.isEmpty then (m, caps) :: findAllAux ps fuel (s.drop 1)
      else (m, caps) :: findAllAux ps fuel rest
    | none =>
      match s with
      | [] => []
      | _ :: t => findAllAux ps fuel t

/-- Go `regexp.FindAllStringSubmatch(s, -1)` for a restricted pattern. -/
def findAllSubmatch (ps : List Piece) (s : Str) : List (Str × List Str) :=
  findAllAux ps (s.length + 1) s

/-- Go `regexp.FindAllString(s, -1)`. -/
def findAllString (ps : List Piece) (s : Str) : List Str :=
  (findAllSubmatch ps s).map Prod.fst

/-- Go `regexp.FindStringSubmatch` (first match only, `[]` if none). -/
def findFirstSubmatch (ps : List Piece) (s : Str) : Option (Str × List Str) :=
  (findAllSubmatch ps s).head?

/-- Fueled core of Go `ReplaceAllString`: at each position, if the pattern
matches, emit the template applied to the capture groups and continue
after the match, else copy one character. -/
def replaceRegexAux (ps : List Piece) (tmpl : List Str → Str) : Nat → Str → Str
  | 0, s => s
  | fuel + 1, s =>
    match matchPieces ps s with
    | some (caps, rest) =>
      let m := s.take (s.length - rest.length)
      if m.isEmpty then
        match s with
        | [] => tmpl caps
        | c :: t => tmpl caps ++ (c :: replaceRegexAux ps tmpl fuel t)
      else tmpl caps ++ replaceRegexAux ps tmpl fuel rest
    | none =>
      match s with
      | [] => []
      | c :: t => c :: replaceRegexAux ps tmpl fuel t

/-- Go `regexp.ReplaceAllString` for a restricted pattern. -/
def replaceRegex (ps : List Piece) (tmpl : List Str → Str) (s : Str) : Str :=
  replaceRegexAux ps tmpl (s.length + 1) s

-- Engine lemmas.

theorem tryTake_exists {g : Bool} {next : Str → Option (List Str × Str)} {s : Str} {lo : Nat} :
    ∀ k caps r, tryTake g next s lo k = some (caps, r) →
      ∃ kk caps', lo ≤ kk ∧ kk ≤ k ∧ next (s.drop kk) = some (caps', r) ∧
        caps = (if g then [s.take kk] else []) ++ caps' := by
  intro k
  induction k with
  | zero =>
    intro caps r h
    simp only [tryTake] at h
    by_cases hlo : lo = 0
    · rw [if_pos hlo] at h
      match hnext : next s with
      | some (caps', r') =>
        rw [hnext] at h
        cases h
        exact ⟨0, caps', Nat.le_of_eq hlo, le_rfl, by simpa using hnext, by simp⟩
      | none => rw [hnext] at h; cases h
    · rw [if_neg hlo] at h; cases h
  | succ k ih =>
    intro caps r h
    simp only [tryTake] at h
    by_cases hlt : k + 1 < lo
    · rw [if_pos hlt] at h; cases h
    · rw [if_neg hlt] at h
      match hnext : next (s.drop (k + 1)) with
      | some (caps', r') =>
        rw [hnext] at h
        cases h
        exact ⟨k + 1, caps', by omega, le_rfl, hnext, rfl⟩
      | none =>
        rw [hnext] at h
        rcases ih caps r h with ⟨kk, caps', h1, h2, h3, h4⟩
        exact ⟨kk, caps', h1, by omega, h3, h4⟩

theorem matchPieces_rest_suffix :
    ∀ (ps : List Piece) (s rest : Str) (hcaps : List Str),
      matchPieces ps s = some (hcaps, rest) → rest.IsSuffix s := by
  intro ps
  induction ps with
  | nil =>
    intro s rest hcaps h
    simp only [matchPieces] at h
    cases h
    exact List.suffix_refl _
  | cons p ps ih =>
    intro s rest hcaps h
    match p with
    | .lit cs =>
      simp only [matchPieces] at h
      by_cases hp : cs.isPrefixOf s
      · rw [if_pos hp] at h
        exact (ih _ rest hcaps h).trans (List.drop_suffix _ _)
      · rw [if_neg hp] at h; cases h
    | .cls pr q g =>
      simp only [matchPieces] at h
      split at h
      · cases h
      · rcases tryTake_exists _ hcaps rest h with ⟨kk, caps', -, -, h3, -⟩
        exact (ih _ rest caps' h3).trans (List.drop_suffix _ _)

theorem matchPieces_rest_length {ps : List Piece} {s rest : Str} {hcaps : List Str}
    (h : matchPieces ps s = some (hcaps, rest)) : rest.length ≤ s.length :=
  (matchPieces_rest_suffix ps s rest hcaps h).length_le

/-- A piece list is consuming when its first piece cannot match the
empty string.  Every pattern embedded in this file is consuming. -/
def ConsumesOne (ps : List Piece) : Prop :=
  match ps with
  | .lit (_ :: _) :: _ => True
  | .cls _ .plus _ :: _ => True
  | .cls _ .once _ :: _ => True
  | _ => False

theorem matchPieces_consumes {ps : List Piece} (hc : ConsumesOne ps) :
    ∀ {s rest : Str} {hcaps : List Str},
      matchPieces ps s = some (hcaps, rest) → rest.length < s.length := by
  intro s rest hcaps h
  match ps, hc with
  | .lit (c :: cs) :: ps', _ =>
    simp only [matchPieces] at h
    by_cases hp : (c :: cs).isPrefixOf s
    · rw [if_pos hp] at h
      have h1 := matchPieces_rest_length h
      have h2 : (c :: cs).length ≤ s.length := (List.isPrefixOf_iff_prefix.mp hp).length_le
      rw [List.length_drop] at h1
      simp only [List.length_cons] at h1 h2
      omega
    · rw [if_neg hp] at h; cases h
  | .cls pr .plus g :: ps', _ =>
    simp only [matchPieces] at h
    split at h
    · cases h
    · rcases tryTake_exists _ hcaps rest h with ⟨kk, caps', hlo, -, h3, -⟩
      have h1 := matchPieces_rest_length h3
      rw [List.length_drop] at h1
      rename_i hhi
      simp only [not_lt] at hhi
      have hrun : 1 ≤ (s.takeWhile pr).length := hhi
      have hs : 1 ≤ s.length := le_trans hrun (by simpa using (List.takeWhile_prefix pr (l := s)).length_le)
      omega
  | .cls pr .once g :: ps', _ =>
    simp only [matchPieces] at h
    split at h
    · cases h
    · rcases tryTake_exists _ hcaps rest h with ⟨kk, caps', hlo, -, h3, -⟩
      have h1 := matchPieces_rest_length h3
      rw [List.length_drop] at h1
      rename_i hhi
      simp only [not_lt] at hhi
      have hrun : 1 ≤ min 1 (s.takeWhile pr).length := hhi
      have hs : 1 ≤ s.length := by
        have := (List.takeWhile_prefix pr (l := s)).length_le
        omega
      omega

/-- Matched text of a successful match: `s` decomposes as match ++ rest. -/
theorem matchPieces_decomp {ps : List Piece} {s rest : Str} {hcaps : List Str}
    (h : matchPieces ps s = some (hcaps, rest)) :
    s = s.take (s.length - rest.length) ++ rest := by
  rcases matchPieces_rest_suffix ps s rest hcaps h with ⟨t, ht⟩
  have hlen : s.length - rest.length = t.length := by
    rw [← ht]; simp
  rw [hlen, ← ht, List.take_left]

theorem findAllAux_fuel {ps : List Piece} (hc : ConsumesOne ps) :
    ∀ f g s, s.length + 1 ≤ f → s.length + 1 ≤ g →
      findAllAux ps f s = findAllAux ps g s := by
  intro f
  induction f using Nat.strong_induction_on with
  | _ f ih =>
    intro g s hf hg
    match f, g with
    | f + 1, g + 1 =>
      simp only [findAllAux]
      match hm : matchPieces ps s with
      | some (caps, rest) =>
        have hlt := matchPieces_consumes hc hm
        have hne : ¬ (s.take (s.length - rest.length)).isEmpty = true := by
          simp only [List.isEmpty_iff, ← List.length_eq_zero, List.length_take]
          omega
        dsimp only
        rw [if_neg hne, if_neg hne]
        congr 1
        exact ih f (by omega) g rest (by omega) (by omega)
      | none =>
        match s with
        | [] => rfl
        | c :: t =>
          dsimp only
          simp only [List.length_cons] at hf hg
          exact ih f (by omega) g t (by omega) (by omega)

/-- Every match returned by the scanner is an infix of the scanned string. -/
theorem findAllAux_infix {ps : List Piece} (hc : ConsumesOne ps) :
    ∀ f s m, m ∈ findAllAux ps f s → ∃ a b, s = a ++ m.1 ++ b := by
  intro f
  induction f with
  | zero => intro s m h; simp [findAllAux] at h
  | succ f ih =>
    intro s m h
    simp only [findAllAux] at h
    match hm : matchPieces ps s with
    | some (caps, rest) =>
      rw [hm] at h
      dsimp only at h
      have hlt := matchPieces_consumes hc hm
      have hne : ¬ (s.take (s.length - rest.length)).isEmpty = true := by
        simp only [List.isEmpty_iff, ← List.length_eq_zero, List.length_take]
        omega
      rw [if_neg hne] at h
      rcases List.mem_cons.mp h with h | h
      · subst h
        exact ⟨[], rest, by simpa using matchPieces_decomp hm⟩
      · rcases ih rest m h with ⟨a, b, hab⟩
        refine ⟨s.take (s.length - rest.length) ++ a, b, ?_⟩
        conv_lhs => rw [matchPieces_decomp hm]
        rw [hab]; simp
    | none =>
      rw [hm] at h
      match s with
      | [] => simp at h
      | c :: t =>
        rcases ih t m h with ⟨a, b, hab⟩
        exact ⟨c :: a, b, by simp [hab]⟩

-- ## The content scanner (`findAllAttachments` and helpers)

/-- Go regexp class `["']`. -/
def quoteChar (c : Char) : Bool := c = '"' || c = '\''

/-- Go regexp class `\s` (RE2 whitespace: tab, newline, form feed,
carriage return, space). -/
def goSpace (c : Char) : Bool :=
  c = ' ' || c = '\t' || c = '\n' || c = Char.ofNat 12 || c = '\r'

/-- Go regexp class `\w` = `[0-9A-Za-z_]`. -/
def wordChar (c : Char) : Bool := c.isAlphanum || c = '_'

/-- Go regexp class `[a-f0-9]`. -/
def hexLower (c : Char) : Bool := ('a' ≤ c && c ≤ 'f') || c.isDigit

/-- Go regexp class `\d`. -/
def digitCh (c : Char) : Bool := c.isDigit

/-- Negated single-character class `[^x]`. -/
def notChar (x : Char) (c : Char) : Bool := c ≠ x

/-- Go regexp class `[^"'\s\)]`. -/
def notDelim (c : Char) : Bool := !quoteChar c && !goSpace c && c ≠ ')'

/-- `regexp.MustCompile(`<img[^>]*\ssrc=["']([^"']+)["'][^>]*>`)`. -/
def imgTagPieces : List Piece :=
  [.lit (str "<img"), .cls (notChar '>') .star false, .cls goSpace .once false,
   .lit (str "src="), .cls quoteChar .once false,
   .cls (fun c => !quoteChar c) .plus true,
   .cls quoteChar .once false, .cls (notChar '>') .star false, .lit (str ">")]

/-- `regexp.MustCompile(`!\[([^\]]*)\]\(([^)]+)\)`)`. -/
def mdImagePieces : List Piece :=
  [.lit (str "!["), .cls (notChar ']') .star true, .lit (str "]("),
   .cls (notChar ')') .plus true, .lit (str ")")]

/-- `regexp.MustCompile(`<a[^>]*\shref=["']([^"']+)["'][^>]*>([^<]*)</a>`)`. -/
def aHrefPieces : List Piece :=
  [.lit (str "<a"), .cls (notChar '>') .star false, .cls goSpace .once false,
   .lit (str "href="), .cls quoteChar .once false,
   .cls (fun c => !quoteChar c) .plus true,
   .cls quoteChar .once false, .cls (notChar '>') .star false, .lit (str ">"),
   .cls (notChar '<') .star true, .lit (str "</a>")]

/-- `regexp.MustCompile(`\[([^\]]+)\]\(([^)]+)\)`)`. -/
def mdLinkPieces : List Piece :=
  [.lit (str "["), .cls (notChar ']') .plus true, .lit (str "]("),
   .cls (notChar ')') .plus true, .lit (str ")")]

/-- `regexp.MustCompile(`alt=["']([^"']*)["']`)`. -/
def altAttrPieces : List Piece :=
  [.lit (str "alt="), .cls quoteChar .once false,
   .cls (fun c => !quoteChar c) .star true, .cls quoteChar .once false]

/-- The rewriter's per-URL pattern
`<img[^>]*\ssrc=["']QuoteMeta(url)["'][^>]*>`. -/
def imgTagForURL (u : Str) : List Piece :=
  [.lit (str "<img"), .cls (notChar '>') .star false, .cls goSpace .once false,
   .lit (str "src="), .cls quoteChar .once false, .lit u,
   .cls quoteChar .once false, .cls (notChar '>') .star false, .lit (str ">")]

/-- The rewriter's per-URL pattern
`<a[^>]*\shref=["']QuoteMeta(url)["'][^>]*>([^<]*)</a>`. -/
def aHrefForURL (u : Str) : List Piece :=
  [.lit (str "<a"), .cls (notChar '>') .star false, .cls goSpace .once false,
   .lit (str "href="), .cls quoteChar .once false, .lit u,
   .cls quoteChar .once false, .cls (notChar '>') .star false, .lit (str ">"),
   .cls (notChar '<') .star true, .lit (str "</a>")]

/-- The Go struct `AttachmentInfo`. -/
structure AttachmentInfo where
  URL : Str
  NewURL : Str
  IsImage : Bool
  OriginalText : Str
deriving DecidableEq, Repr

/-- Go `isValidURL`: the URL must start with `http://` or `https://`. -/
def isValidURL (url : Str) : Bool :=
  (str "http://").isPrefixOf url || (str "https://").isPrefixOf url

/-- The extension allow-list of Go `isFileURL`. -/
def fileExts : List Str :=
  [str ".png", str ".jpg", str ".jpeg", str ".gif", str ".webp", str ".svg", str ".bmp",
   str ".pdf", str ".doc", str ".docx", str ".xls", str ".xlsx", str ".ppt", str ".pptx",
   str ".txt", str ".rtf", str ".odt", str ".ods", str ".odp",
   str ".zip", str ".tar", str ".gz", str ".rar", str ".7z",
   str ".js", str ".ts", str ".py", str ".go", str ".java", str ".c", str ".cpp", str ".h",
   str ".json", str ".xml", str ".yaml", str ".yml", str ".toml", str ".ini", str ".conf",
   str ".csv", str ".log", str ".sql", str ".sh", str ".bat", str ".exe", str ".dmg",
   str ".deb", str ".rpm"]

/-- The hosting-path patterns of Go `isFileURL`. -/
def filePatterns : List Str :=
  [str "github.com/user-attachments/assets", str "gitlab.com/uploads",
   str "githubusercontent.com"]

/-- Go `isFileURL`: extension allow-list is checked on the lowercased URL,
hosting patterns on the original URL. -/
def isFileURL (url : Str) : Bool :=
  let lowerURL := url.map Char.toLower
  fileExts.any (fun ext => containsSub lowerURL ext) ||
    filePatterns.any (fun pat => containsSub url pat)

/-- One step of the scanner's shared dedup: add the reference when the
guards hold and the URL was not seen; Go's `seen` map is a list here. -/
def addIfNew (st : List AttachmentInfo × List Str) (ok : Bool) (u : Str)
    (info : AttachmentInfo) : List AttachmentInfo × List Str :=
  if ¬ st.2.contains u ∧ ok then (st.1 ++ [info], st.2 ++ [u]) else st

/-- Pattern 1 of `findAllAttachments`: HTML img tags. -/
def scanPass1 (content : Str) (st : List AttachmentInfo × List Str) :
    List AttachmentInfo × List Str :=
  (findAllSubmatch imgTagPieces content).foldl
    (fun st m =>
      match m.2.head? with
      | some u => addIfNew st (isValidURL u) u ⟨u, [], true, m.1⟩
      | none => st) st

/-- Pattern 2 of `findAllAttachments`: Markdown images. -/
def scanPass2 (content : Str) (st : List AttachmentInfo × List Str) :
    List AttachmentInfo × List Str :=
  (findAllSubmatch mdImagePieces content).foldl
    (fun st m =>
      match m.2.get? 1 with
      | some u => addIfNew st (isValidURL u) u ⟨u, [], true, m.1⟩
      | none => st) st

/-- Pattern 3 of `findAllAttachments`: HTML links to files. -/
def scanPass3 (content : Str) (st : List AttachmentInfo × List Str) :
    List AttachmentInfo × List Str :=
  (findAllSubmatch aHrefPieces content).foldl
    (fun st m =>
      match m.2.head? with
      | some u => addIfNew st (isValidURL u && isFileURL u) u ⟨u, [], false, m.1⟩
      | none => st) st

/-- Pattern 4 of `findAllAttachments`: Markdown links to files (the Go
guard `!strings.HasPrefix(match[0], "!")` is kept verbatim). -/
def scanPass4 (content : Str) (st : List AttachmentInfo × List Str) :
    List AttachmentInfo × List Str :=
  (findAllSubmatch mdLinkPieces content).foldl
    (fun st m =>
      match m.2.get? 1 with
      | some u =>
        addIfNew st (!(str "!").isPrefixOf m.1 && isValidURL u && isFileURL u)
          u ⟨u, [], false, m.1⟩
      | none => st) st

/-- Go `findAllAttachments`: the four passes share one `seen` set. -/
def findAllAttachments (content : Str) : List AttachmentInfo :=
  (scanPass4 content (scanPass3 content (scanPass2 content
    (scanPass1 content ([], []))))).1

-- ## Filenames (`getFilename`, `sanitizeFilename`, `guessExtension`)

/-- Go `path.Base`. -/
def pathBase (p : Str) : Str :=
  if p = [] then str "."
  else
    let q := (p.reverse.dropWhile (fun c => c = '/')).reverse
    let base := (q.reverse.takeWhile (fun c => c ≠ '/')).reverse
    if base = [] then str "/" else base

/-- Go `sanitizeFilename`: spaces to underscores, drop every character
outside `[\w\-\.]`, fall back to `"file"`. -/
def sanitizeFilename (name : Str) : Str :=
  let n1 := replaceAll name (str " ") (str "_")
  let n2 := replaceRegex
    [.cls (fun c => !(wordChar c || c = '-' || c = '.')) .once false]
    (fun _ => []) n1
  if n2 = [] then str "file" else n2

/-- The extension map of Go `guessExtension`, in source order.  (Go
iterates a map here, whose order is unspecified; the claims settled in
this file do not depend on this order.) -/
def guessExtTable : List (Str × Str) :=
  [(str "png", str ".png"), (str "jpg", str ".jpg"), (str "jpeg", str ".jpeg"),
   (str "gif", str ".gif"), (str "pdf", str ".pdf"), (str "zip", str ".zip"),
   (str "doc", str ".doc"), (str "docx", str ".docx")]

/-- Go `guessExtension`. -/
def guessExtension (url : Str) : Str :=
  let lowerURL := url.map Char.toLower
  match guessExtTable.find? (fun kv => containsSub lowerURL kv.1) with
  | some kv => kv.2
  | none => []

/-- Go `getFilename`.  `strings.Index(url, "?")` trims at the first
question mark. -/
def getFilename (url originalText : Str) : Str :=
  let cleanURL := if containsSub url (str "?") then url.takeWhile (fun c => c ≠ '?') else url
  if containsSub url (str "github.com/user-attachments/assets") then
    if containsSub originalText (str "alt=") then
      match findFirstSubmatch altAttrPieces originalText with
      | some m =>
        match m.2.head? with
        | some name =>
          let name := if ¬ containsSub name (str ".") then name ++ guessExtension url else name
          sanitizeFilename name
        | none => str "attachment" ++ guessExtension url
      | none => str "attachment" ++ guessExtension url
    else str "attachment" ++ guessExtension url
  else
    let filename := pathBase cleanURL
    if filename ≠ [] ∧ filename ≠ str "." ∧ filename ≠ str "/" then sanitizeFilename filename
    else str "attachment"

-- ## GitLab upload (`uploadFileToGitLab`)

/-- The 403 error string of `uploadFileToGitLab` (with its actionable
hint about the token's `api` scope). -/
def forbiddenMsg (projectID : Nat) (respBody : Str) : Str :=
  str "upload failed with status 403 Forbidden - Check that your GitLab token has \x27api\x27 scope and write access to project "
    ++ natDigits projectID ++ str ": " ++ respBody

/-- The generic error string of `uploadFileToGitLab` for a failing status. -/
def genericMsg (status : Nat) (respBody : Str) : Str :=
  str "upload failed with status " ++ natDigits status ++ str ": " ++ respBody

/-- Response handling of Go `uploadFileToGitLab` (lines 565-589): the
HTTP transport itself is an oracle; `parsed` is the result of
`json.Unmarshal` extracting the `url` field. -/
def uploadFileToGitLab (projectID : Nat) (baseURL : Str) (status : Nat)
    (respBody : Str) (parsed : Except Str Str) : Except Str Str :=
  if status ≠ 201 ∧ status ≠ 200 then
    if status = 403 then .error (forbiddenMsg projectID respBody)
    else .error (genericMsg status respBody)
  else
    match parsed with
    | .error e => .error e
    | .ok u => .ok (if (str "/").isPrefixOf u then baseURL ++ u else u)

-- ## The attachment pipeline (`processAttachments`)

/-- Outcome of one attachment download (`http.NewRequest`, `client.Do`,
status check, `io.ReadAll`). -/
inductive DlResult where
  | reqErr (e : Str) : DlResult
  | netErr (e : Str) : DlResult
  | httpStatus (code : Nat) (readResult : Except Str (List Nat)) : DlResult

/-- Network oracle for the GitHub-to-GitLab attachment pipeline. -/
structure AttachEnv where
  /-- `client.Do` on the download request: URL and optional
  Authorization header value. -/
  download : Str → Option Str → DlResult
  /-- The GitLab upload POST: projectID, data, filename, token, baseURL
  to either a transport error or (status, response body, parsed `url`). -/
  glUpload : Nat → List Nat → Str → Str → Str → Except Str (Nat × Str × Except Str Str)

/-- The Authorization header attached by `processAttachments`
(lines 304-308): a substring test for `github.com` plus a nonempty
source token. -/
def ghDownloadAuth (url sourceToken : Str) : Option Str :=
  if containsSub url (str "github.com") && !sourceToken.isEmpty then
    some (str "Bearer " ++ sourceToken)
  else none

/-- Downloaded bytes, or `none` on request error, transport error,
non-200 status, or read error (lines 298-327). -/
def downloadOutcome (env : AttachEnv) (url : Str) (auth : Option Str) :
    Option (List Nat) :=
  match env.download url auth with
  | .reqErr _ => none
  | .netErr _ => none
  | .httpStatus code rd =>
    if code ≠ 200 then none
    else match rd with
      | .error _ => none
      | .ok data => some data

/-- One attachment's download-then-upload: the new URL on success,
`none` if any step failed (the Go loop body's `continue` paths). -/
def attachSucceeds (env : AttachEnv) (a : AttachmentInfo) (projectID : Nat)
    (token baseURL sourceToken : Str) : Option Str :=
  match downloadOutcome env a.URL (ghDownloadAuth a.URL sourceToken) with
  | none => none
  | some data =>
    let filename := getFilename a.URL a.OriginalText
    let uploaded :=
      match env.glUpload projectID data filename token baseURL with
      | .error e => Except.error e
      | .ok (st, b, p) => uploadFileToGitLab projectID baseURL st b p
    match uploaded with
    | .error _ => none
    | .ok newURL => some newURL

/-- The `urlMap` built by the download/upload loop (lines 294-344).
Go stores it in a map keyed by URL; since `findAllAttachments`
deduplicates URLs, an insertion-ordered association list is faithful. -/
def urlMapStep (env : AttachEnv) (projectID : Nat) (token baseURL sourceToken : Str)
    (m : List (Str × AttachmentInfo)) (a : AttachmentInfo) : List (Str × AttachmentInfo) :=
  match attachSucceeds env a projectID token baseURL sourceToken with
  | some newURL => m ++ [(a.URL, { a with NewURL := newURL })]
  | none => m

def buildUrlMap (env : AttachEnv) (atts : List AttachmentInfo) (projectID : Nat)
    (token baseURL sourceToken : Str) : List (Str × AttachmentInfo) :=
  atts.foldl (urlMapStep env projectID token baseURL sourceToken) []

/-- The relative-URL conversion at the top of the replacement loop
(lines 352-358). -/
def relativizeGL (newURL : Str) : Str :=
  if containsSub newURL (str "/uploads/") then
    match (splitSub newURL (str "/uploads/")).get? 1 with
    | some p1 => str "/uploads/" ++ p1
    | none => newURL
  else newURL

/-- The URL replacement loop of `processAttachments` (lines 346-404). -/
def rewriteWithMap (content : Str) (entries : List (Str × AttachmentInfo)) : Str :=
  entries.foldl
    (fun result e =>
      let oldURL := e.1
      let a := e.2
      let relativeURL := relativizeGL a.NewURL
      if a.IsImage then
        if containsSub a.OriginalText (str "<img") then
          (findAllString (imgTagForURL oldURL) result).foldl
            (fun result mtch =>
              let altText :=
                match findFirstSubmatch altAttrPieces mtch with
                | some m =>
                  match m.2.head? with
                  | some g => if g ≠ [] then g else str "Image"
                  | none => str "Image"
                | none => str "Image"
              replaceAll result mtch
                (str "![" ++ altText ++ str "](" ++ relativeURL ++ str ")")) result
        else
          replaceAll result (str "(" ++ oldURL ++ str ")")
            (str "(" ++ relativeURL ++ str ")")
      else
        if containsSub a.OriginalText (str "<a") then
          (findAllSubmatch (aHrefForURL oldURL) result).foldl
            (fun result m =>
              let linkText :=
                match m.2.head? with
                | some g => if g ≠ [] then g else str "Download"
                | none => str "Download"
              replaceAll result m.1
                (str "[" ++ linkText ++ str "](" ++ relativeURL ++ str ")")) result
        else replaceAll result oldURL relativeURL) content

/-- Go `processAttachments` (lines 276-404). -/
def processAttachments (env : AttachEnv) (content : Str) (projectID : Nat)
    (token baseURL sourceToken : Str) : Str :=
  if content = [] then content
  else
    let attachmentURLs := findAllAttachments content
    if attachmentURLs.length = 0 then content
    else
      rewriteWithMap content
        (buildUrlMap env attachmentURLs projectID token baseURL sourceToken)

-- ## The format sniffer (`detectFileExtension`)

/-- Byte slice `data[lo:hi]` (always guarded by length checks in the Go
code, so the truncating model is exact). -/
def byteSlice (data : List Nat) (lo hi : Nat) : List Nat :=
  (data.drop lo).take (hi - lo)

/-- Bytes of an ASCII literal, for magic-number comparisons. -/
def strBytes (s : String) : List Nat := s.data.map Char.toNat

/-- The SVG textual probe of `detectFileExtension`: the lowercased
decoding of the first `min(len, 200)` bytes. -/
def svgHeader (data : List Nat) : Str :=
  (data.take (Nat.min data.length 200)).map (fun b => (Char.ofNat b).toLower)

/-- Go `detectFileExtension` (lines 936-1033), an ordered cascade of
magic-number checks over the leading bytes. -/
def detectFileExtension (data : List Nat) : Str :=
  if data.length < 4 then []
  else if 3 ≤ data.length ∧ data.getD 0 0 = 0xFF ∧ data.getD 1 0 = 0xD8 ∧ data.getD 2 0 = 0xFF then
    str ".jpg"
  else if 8 ≤ data.length ∧ byteSlice data 0 8 = [0x89, 0x50, 0x4E, 0x47, 0x0D, 0x0A, 0x1A, 0x0A] then
    str ".png"
  else if 6 ≤ data.length ∧ (byteSlice data 0 6 = strBytes "GIF87a" ∨ byteSlice data 0 6 = strBytes "GIF89a") then
    str ".gif"
  else if 12 ≤ data.length ∧ byteSlice data 0 4 = strBytes "RIFF" ∧ byteSlice data 8 12 = strBytes "WEBP" then
    str ".webp"
  else if 2 ≤ data.length ∧ data.getD 0 0 = 0x42 ∧ data.getD 1 0 = 0x4D then
    str ".bmp"
  else if 4 ≤ data.length ∧ data.getD 0 0 = 0x00 ∧ data.getD 1 0 = 0x00 ∧ data.getD 2 0 = 0x01 ∧ data.getD 3 0 = 0x00 then
    str ".ico"
  else if 4 ≤ data.length ∧ data.getD 0 0 = 0x49 ∧ data.getD 1 0 = 0x49 ∧ data.getD 2 0 = 0x2A ∧ data.getD 3 0 = 0x00 then
    str ".tiff"
  else if 4 ≤ data.length ∧ data.getD 0 0 = 0x4D ∧ data.getD 1 0 = 0x4D ∧ data.getD 2 0 = 0x00 ∧ data.getD 3 0 = 0x2A then
    str ".tiff"
  else if 50 ≤ data.length ∧ (containsSub (svgHeader data) (str "<svg") = true ∨
      (containsSub (svgHeader data) (str "<?xml") = true ∧ containsSub (svgHeader data) (str "svg") = true)) then
    str ".svg"
  else if 12 ≤ data.length ∧ (byteSlice data 4 8 = strBytes "ftypheic" ∨ byteSlice data 4 8 = strBytes "ftypheix" ∨ byteSlice data 4 8 = strBytes "ftyphevc") then
    str ".heic"
  else if 12 ≤ data.length ∧ byteSlice data 4 8 = strBytes "ftypavif" then
    str ".avif"
  else if 5 ≤ data.length ∧ byteSlice data 0 5 = strBytes "%PDF-" then
    str ".pdf"
  else if 4 ≤ data.length ∧ data.getD 0 0 = 0x50 ∧ data.getD 1 0 = 0x4B ∧
      (data.getD 2 0 = 0x03 ∨ data.getD 2 0 = 0x05 ∨ data.getD 2 0 = 0x07) ∧
      (data.getD 3 0 = 0x04 ∨ data.getD 3 0 = 0x06 ∨ data.getD 3 0 = 0x08) then
    str ".zip"
  else if 12 ≤ data.length ∧ (byteSlice data 4 8 = strBytes "ftyp" ∨ byteSlice data 4 8 = strBytes "ftypmp4" ∨ byteSlice data 4 8 = strBytes "ftypisom") then
    str ".mp4"
  else if 12 ≤ data.length ∧ byteSlice data 0 4 = strBytes "RIFF" ∧ byteSlice data 8 12 = strBytes "AVI " then
    str ".avi"
  else if 8 ≤ data.length ∧ byteSlice data 4 8 = strBytes "ftypqt" then
    str ".mov"
  else if 4 ≤ data.length ∧ data.getD 0 0 = 0x1A ∧ data.getD 1 0 = 0x45 ∧ data.getD 2 0 = 0xDF ∧ data.getD 3 0 = 0xA3 then
    str ".webm"
  else []

/-- The disjunction of all signature conditions checked by
`detectFileExtension` (each disjunct is one if-guard, verbatim). -/
def knownSignature (data : List Nat) : Prop :=
  (3 ≤ data.length ∧ data.getD 0 0 = 0xFF ∧ data.getD 1 0 = 0xD8 ∧ data.getD 2 0 = 0xFF) ∨
  (8 ≤ data.length ∧ byteSlice data 0 8 = [0x89, 0x50, 0x4E, 0x47, 0x0D, 0x0A, 0x1A, 0x0A]) ∨
  (6 ≤ data.length ∧ (byteSlice data 0 6 = strBytes "GIF87a" ∨ byteSlice data 0 6 = strBytes "GIF89a")) ∨
  (12 ≤ data.length ∧ byteSlice data 0 4 = strBytes "RIFF" ∧ byteSlice data 8 12 = strBytes "WEBP") ∨
  (2 ≤ data.length ∧ data.getD 0 0 = 0x42 ∧ data.getD 1 0 = 0x4D) ∨
  (4 ≤ data.length ∧ data.getD 0 0 = 0x00 ∧ data.getD 1 0 = 0x00 ∧ data.getD 2 0 = 0x01 ∧ data.getD 3 0 = 0x00) ∨
  (4 ≤ data.length ∧ data.getD 0 0 = 0x49 ∧ data.getD 1 0 = 0x49 ∧ data.getD 2 0 = 0x2A ∧ data.getD 3 0 = 0x00) ∨
  (4 ≤ data.length ∧ data.getD 0 0 = 0x4D ∧ data.getD 1 0 = 0x4D ∧ data.getD 2 0 = 0x00 ∧ data.getD 3 0 = 0x2A) ∨
  (50 ≤ data.length ∧ (containsSub (svgHeader data) (str "<svg") = true ∨
    (containsSub (svgHeader data) (str "<?xml") = true ∧ containsSub (svgHeader data) (str "svg") = true))) ∨
  (12 ≤ data.length ∧ (byteSlice data 4 8 = strBytes "ftypheic" ∨ byteSlice data 4 8 = strBytes "ftypheix" ∨ byteSlice data 4 8 = strBytes "ftyphevc")) ∨
  (12 ≤ data.length ∧ byteSlice data 4 8 = strBytes "ftypavif") ∨
  (5 ≤ data.length ∧ byteSlice data 0 5 = strBytes "%PDF-") ∨
  (4 ≤ data.length ∧ data.getD 0 0 = 0x50 ∧ data.getD 1 0 = 0x4B ∧
    (data.getD 2 0 = 0x03 ∨ data.getD 2 0 = 0x05 ∨ data.getD 2 0 = 0x07) ∧
    (data.getD 3 0 = 0x04 ∨ data.getD 3 0 = 0x06 ∨ data.getD 3 0 = 0x08)) ∨
  (12 ≤ data.length ∧ (byteSlice data 4 8 = strBytes "ftyp" ∨ byteSlice data 4 8 = strBytes "ftypmp4" ∨ byteSlice data 4 8 = strBytes "ftypisom")) ∨
  (12 ≤ data.length ∧ byteSlice data 0 4 = strBytes "RIFF" ∧ byteSlice data 8 12 = strBytes "AVI ") ∨
  (8 ≤ data.length ∧ byteSlice data 4 8 = strBytes "ftypqt") ∨
  (4 ≤ data.length ∧ data.getD 0 0 = 0x1A ∧ data.getD 1 0 = 0x45 ∧ data.getD 2 0 = 0xDF ∧ data.getD 3 0 = 0xA3)

-- ## GitLab-to-GitHub processing

/-- Go regexp literal for the (unquoted) GitLab base URL: Go compiles it
without `QuoteMeta`, so `.` matches any character; other characters of a
base URL carry no regex meaning and stay literal. -/
def litGoURL (g : Str) : List Piece :=
  g.map (fun c => if c = '.' then Piece.cls (fun _ => true) .once false else Piece.lit [c])

/-- The new-format project-upload pattern: `gitlabURL` followed by
`"(slash)-(slash)project(slash)"` then `(\d+)/uploads/([a-f0-9]+)` and a
final `([^"'\s\)]+)` group (Go compiles `gitlabURL + ...` unescaped). -/
def projectUploadPieces (gitlabURL : Str) : List Piece :=
  litGoURL gitlabURL ++
    [.lit (str "/-/project/"), .cls digitCh .plus true, .lit (str "/uploads/"),
     .cls hexLower .plus true, .lit (str "/"), .cls notDelim .plus true]

/-- `regexp.MustCompile(regexp.QuoteMeta(baseURL) + `/uploads/([a-f0-9]+)/([^"'\s\)]+)`)`. -/
def oldFormatPieces (baseURL : Str) : List Piece :=
  [.lit (baseURL ++ str "/uploads/"), .cls hexLower .plus true, .lit (str "/"),
   .cls notDelim .plus true]

/-- The attachment note header added by `fixGitLabAttachmentURLs`. -/
def gitlabNoteHeader (baseURL : Str) : Str :=
  str "_Note: This issue contains attachments hosted on GitLab (" ++ baseURL ++
    str "). These files will remain accessible as long as the GitLab project exists._\n\n"

/-- Go `fixGitLabAttachmentURLs` (lines 897-933). -/
def fixGitLabAttachmentURLs (content baseURL : Str) (projectID : Nat) : Str :=
  if content = [] then content
  else
    let pid := natDigits projectID
    let c1 := replaceAll content (str "](/uploads/") (str "](/-/project/" ++ pid ++ str "/uploads/")
    let c2 := replaceAll c1 (str "=\"/uploads/") (str "=\"/-/project/" ++ pid ++ str "/uploads/")
    let c3 := replaceAll c2 (str "='/uploads/") (str "='/-/project/" ++ pid ++ str "/uploads/")
    let c4 := replaceRegex (oldFormatPieces baseURL)
      (fun caps => baseURL ++ str "/-/project/" ++ pid ++ str "/uploads/" ++
        caps.getD 0 [] ++ str "/" ++ caps.getD 1 []) c3
    let c5 := replaceAll c4 (str "](/-/project/") (str "](" ++ baseURL ++ str "/-/project/")
    let c6 := replaceAll c5 (str "=\"/-/project/") (str "=\"" ++ baseURL ++ str "/-/project/")
    let c7 := replaceAll c6 (str "='/-/project/") (str "='" ++ baseURL ++ str "/-/project/")
    if containsSub c7 (baseURL ++ str "/uploads/") then
      let header := gitlabNoteHeader baseURL
      if ¬ containsSub c7 header then header ++ c7 else c7
    else c7

/-- The Go struct `GitLabAttachment`. -/
structure GitLabAttachment where
  URL : Str
  Filename : Str
deriving DecidableEq, Repr

/-- Go `findGitLabAttachments` (lines 828-856). -/
def findGitLabAttachments (content gitlabURL : Str) : List GitLabAttachment :=
  ((findAllSubmatch (projectUploadPieces gitlabURL) content).foldl
    (fun st m =>
      match m.2.get? 2 with
      | some filename =>
        if ¬ st.2.contains m.1 then (st.1 ++ [⟨m.1, filename⟩], st.2 ++ [m.1])
        else st
      | none => st)
    (([], []) : List GitLabAttachment × List Str)).1

/-- The download authentication choice of `processGitLabToGitHub`
(lines 693-700): session cookie first, then API token, else nothing. -/
inductive GLAuthChoice where
  | cookie (s : Str) : GLAuthChoice
  | privToken (t : Str) : GLAuthChoice
  | noAuth : GLAuthChoice

def glDownloadAuth (gitlabSession gitlabToken : Str) : GLAuthChoice :=
  if gitlabSession ≠ [] then .cookie gitlabSession
  else if gitlabToken ≠ [] then .privToken gitlabToken
  else .noAuth

/-- Network oracle for the GitLab-to-GitHub pipeline. -/
structure GLEnv where
  /-- The GitLab download GET. -/
  download : Str → GLAuthChoice → DlResult
  /-- `getGitHubRepoID` (lines 859-894): returns `""` on any failure. -/
  getRepoID : Str → Str → Str → Str
  /-- `UploadToGitHubWithRepo`: data, filename, token, session, repoID. -/
  ghUpload : List Nat → Str → Str → Str → Str → Except Str Str

/-- The filename/extension adjustment of `processGitLabToGitHub`
(lines 746-759). -/
def glAttachmentFilename (a : GitLabAttachment) (data : List Nat) : Str :=
  let filename := a.Filename
  if ¬ containsSub filename (str ".") ∨ (str "/Image").isSuffixOf filename ∨
      (str "/image").isSuffixOf filename then
    let detectedExt := detectFileExtension data
    if detectedExt ≠ [] then
      if filename = str "Image" ∨ filename = str "image" ∨
          (str "/Image").isSuffixOf filename ∨ (str "/image").isSuffixOf filename then
        str "image" ++ detectedExt
      else if ¬ detectedExt.isSuffixOf filename then filename ++ detectedExt
      else filename
    else filename
  else filename

/-- State threaded through the attachment loop of
`processGitLabToGitHub`: the (possibly notice-extended) content, the
URL map, and — pure instrumentation with no Go counterpart — the list
of URLs for which a GitHub upload was actually attempted. -/
structure GLLoopState where
  content : Str
  urlMap : List (Str × Str)
  uploadAttempts : List Str
deriving DecidableEq, Repr

/-- One iteration of the attachment loop (lines 682-810). -/
def glLoopStep (env : GLEnv)
    (gitlabToken githubToken githubSession gitlabSession githubOwner githubRepo : Str)
    (st : GLLoopState) (a : GitLabAttachment) : GLLoopState :=
  match env.download a.URL (glDownloadAuth gitlabSession gitlabToken) with
  | .reqErr _ => st
  | .netErr _ => st
  | .httpStatus code rd =>
    if code ≠ 200 then st
    else
      match rd with
      | .error _ => st
      | .ok data =>
        let filename := glAttachmentFilename a data
        if githubSession = [] then st
        else
          let repoID :=
            if githubOwner ≠ [] ∧ githubRepo ≠ [] ∧ githubToken ≠ [] then
              env.getRepoID githubOwner githubRepo githubToken
            else []
          let st := { st with uploadAttempts := st.uploadAttempts ++ [a.URL] }
          match env.ghUpload data filename githubToken githubSession repoID with
          | .error _ =>
            if ¬ containsSub st.content (str "_GitHub_upload_notice_shown_") then
              { st with content := st.content ++ str "<!-- _GitHub_upload_notice_shown_ -->" }
            else st
          | .ok githubURL => { st with urlMap := st.urlMap ++ [(a.URL, githubURL)] }

/-- The final loop state over all found attachments. -/
def glLoopResult (env : GLEnv) (content1 gitlabURL : Str)
    (gitlabToken githubToken githubSession gitlabSession githubOwner githubRepo : Str) :
    GLLoopState :=
  (findGitLabAttachments content1 gitlabURL).foldl
    (glLoopStep env gitlabToken githubToken githubSession gitlabSession githubOwner githubRepo)
    ⟨content1, [], []⟩

/-- Go `processGitLabToGitHub` (lines 662-819). -/
def processGitLabToGitHub (env : GLEnv) (content gitlabURL : Str) (projectID : Nat)
    (gitlabToken githubToken githubSession gitlabSession githubOwner githubRepo : Str) : Str :=
  if content = [] then content
  else
    let content1 := fixGitLabAttachmentURLs content gitlabURL projectID
    let attachments := findGitLabAttachments content1 gitlabURL
    if attachments.length = 0 then content1
    else
      let final := glLoopResult env content1 gitlabURL gitlabToken githubToken
        githubSession gitlabSession githubOwner githubRepo
      final.urlMap.foldl (fun result kv => replaceAll result kv.1 kv.2) final.content

-- ## The migration orchestrators

/-- `models.MigrationStatus` (unset optional fields default to zero). -/
structure MigrationStatus where
  originalID : Nat
  newID : Nat := 0
  newURL : Str := []
  error : Str := []
deriving DecidableEq, Repr

/-- `models.MigrationResult`. -/
structure MigrationResult where
  success : List MigrationStatus
  failed : List MigrationStatus
deriving DecidableEq, Repr

/-- `models.PlatformConfig`. -/
structure PlatformConfig where
  owner : Str := []
  repo : Str := []
  projectID : Nat := 0
  baseURL : Str := []
  token : Str := []
  session : Str := []
deriving Repr

/-- `models.MigrationRequest` (the `direction` string is dispatched on
in `MigrateWithFiles` and not used below). -/
structure MigrationRequest where
  source : PlatformConfig
  target : PlatformConfig
  issueIDs : List Nat
deriving Repr

/-- The GitHub issue fields consumed by `migrateGHtoGLWithFiles`.
Timestamps are carried in their already-formatted rendering
(`.Format("2006-01-02 15:04:05 UTC")` is external to the core). -/
structure GHIssue where
  body : Str
  title : Str
  htmlURL : Str
  userLogin : Str
  createdAtS : Str
  updatedAtS : Str
  state : Str
  closedAtPresent : Bool
  closedAtS : Str
  labels : List Str

/-- The GitHub comment fields consumed by the comment loop.
`updatedAfterCreated` models `comment.GetUpdatedAt().After(CreatedAt)`. -/
structure GHComment where
  userLogin : Str
  body : Str
  createdAtS : Str
  updatedAtPresent : Bool
  updatedAfterCreated : Bool
  updatedAtS : Str

/-- The created GitLab issue fields used by the orchestrator. -/
structure GLNewIssue where
  iid : Nat
  webURL : Str

/-- Oracle for the GitHub-to-GitLab orchestrator: source fetches and
destination creations. -/
structure GHGLEnv where
  getIssue : Nat → Except Str GHIssue
  /-- `glClient.Issues.CreateIssue`: projectID, title, description, labels. -/
  createIssue : Nat → Str → Str → List Str → Except Str GLNewIssue
  listComments : Nat → Except Str (List GHComment)
  /-- `glClient.Notes.CreateIssueNote`: issue IID, note body. -/
  createNote : Nat → Str → Except Str Unit
  attach : AttachEnv

/-- The migration header composed for a GitHub issue (lines 98-107). -/
def ghHeader (issue : GHIssue) : Str :=
  str "### 🔄 Migrated from GitHub\n\n" ++
  str "**Original Issue:** " ++ issue.htmlURL ++ str "\n" ++
  str "**Original Author:** @" ++ issue.userLogin ++ str "\n" ++
  str "**Created:** " ++ issue.createdAtS ++ str "\n" ++
  str "**Last Updated:** " ++ issue.updatedAtS ++ str "\n" ++
  (if issue.state = str "closed" ∧ issue.closedAtPresent then
    str "**Closed:** " ++ issue.closedAtS ++ str "\n" else []) ++
  str "**State:** " ++ issue.state ++ str "\n\n" ++
  str "---\n\n"

/-- The comment header with the edited marker (lines 145-151). -/
def ghCommentBody (env : GHGLEnv) (req : MigrationRequest) (c : GHComment) : Str :=
  let commentHeader := str "**@" ++ c.userLogin ++ str "** commented on " ++ c.createdAtS ++
    (if c.updatedAtPresent ∧ c.updatedAfterCreated then
      str " _(edited " ++ c.updatedAtS ++ str ")_" else [])
  commentHeader ++ str "\n\n" ++
    processAttachments env.attach c.body req.target.projectID req.target.token
      req.target.baseURL req.source.token

/-- The description sent to GitLab for one GitHub issue. -/
def ghDescription (env : GHGLEnv) (req : MigrationRequest) (issue : GHIssue) : Str :=
  ghHeader issue ++
    processAttachments env.attach issue.body req.target.projectID req.target.token
      req.target.baseURL req.source.token

/-- One iteration of the issue loop of `migrateGHtoGLWithFiles`
(lines 69-167).  Comment posting results are computed and discarded:
a failed `CreateIssueNote` is only logged in Go. -/
def ghglStep (env : GHGLEnv) (req : MigrationRequest) (acc : MigrationResult)
    (issueID : Nat) : MigrationResult :=
  match env.getIssue issueID with
  | .error e => { acc with failed := acc.failed ++ [{ originalID := issueID, error := e }] }
  | .ok issue =>
    match env.createIssue req.target.projectID issue.title (ghDescription env req issue)
        issue.labels with
    | .error e => { acc with failed := acc.failed ++ [{ originalID := issueID, error := e }] }
    | .ok newIssue =>
      let _noteResults :=
        match env.listComments issueID with
        | .error _ => []
        | .ok comments => comments.map (fun c => env.createNote newIssue.iid (ghCommentBody env req c))
      { acc with success := acc.success ++
          [{ originalID := issueID, newID := newIssue.iid, newURL := newIssue.webURL }] }

/-- Go `migrateGHtoGLWithFiles` (lines 59-170). -/
def migrateGHtoGLWithFiles (env : GHGLEnv) (req : MigrationRequest) : MigrationResult :=
  req.issueIDs.foldl (ghglStep env req) ⟨[], []⟩

/-- The GitLab issue fields consumed by `migrateGLtoGHWithFiles`. -/
structure GLIssue where
  description : Str
  title : Str
  webURL : Str
  authorUsername : Str
  createdAtS : Str
  updatedAtS : Str
  state : Str
  closedAtPresent : Bool
  closedAtS : Str
  labels : List Str

/-- The GitLab note fields consumed by the note loop. -/
structure GLNote where
  body : Str
  authorUsername : Str
  createdAtS : Str
  updatedAtPresent : Bool
  updatedAfterCreated : Bool
  updatedAtS : Str

/-- The created GitHub issue fields used by the orchestrator. -/
structure GHNewIssue where
  number : Nat
  htmlURL : Str

/-- Oracle for the GitLab-to-GitHub orchestrator. -/
structure GLGHEnv where
  getIssue : Nat → Except Str GLIssue
  /-- `ghClient.Issues.Create`: title, body, labels, optional state. -/
  createIssue : Str → Str → List Str → Option Str → Except Str GHNewIssue
  listNotes : Nat → Except Str (List GLNote)
  /-- `ghClient.Issues.CreateComment`: issue number, body; the Go code
  discards the result entirely. -/
  createComment : Nat → Str → Except Str Unit
  attach : GLEnv

/-- The migration header composed for a GitLab issue (lines 202-211). -/
def glHeader (issue : GLIssue) : Str :=
  str "### 🔄 Migrated from GitLab\n\n" ++
  str "**Original Issue:** " ++ issue.webURL ++ str "\n" ++
  str "**Original Author:** @" ++ issue.authorUsername ++ str "\n" ++
  str "**Created:** " ++ issue.createdAtS ++ str "\n" ++
  str "**Last Updated:** " ++ issue.updatedAtS ++ str "\n" ++
  (if issue.state = str "closed" ∧ issue.closedAtPresent then
    str "**Closed:** " ++ issue.closedAtS ++ str "\n" else []) ++
  str "**State:** " ++ issue.state ++ str "\n\n" ++
  str "---\n\n"

/-- The body sent to GitHub for one GitLab issue. -/
def glBody (env : GLGHEnv) (req : MigrationRequest) (issue : GLIssue) : Str :=
  glHeader issue ++
    processGitLabToGitHub env.attach issue.description req.source.baseURL
      req.source.projectID req.source.token req.target.token req.target.session
      req.source.session req.target.owner req.target.repo

/-- The note body posted as a GitHub comment (lines 249-257). -/
def glNoteBody (env : GLGHEnv) (req : MigrationRequest) (note : GLNote) : Str :=
  let commentHeader := str "**@" ++ note.authorUsername ++ str "** commented on " ++
    note.createdAtS ++
    (if note.updatedAtPresent ∧ note.updatedAfterCreated then
      str " _(edited " ++ note.updatedAtS ++ str ")_" else [])
  commentHeader ++ str "\n\n" ++
    processGitLabToGitHub env.attach note.body req.source.baseURL
      req.source.projectID req.source.token req.target.token req.target.session
      req.source.session req.target.owner req.target.repo

/-- One iteration of the issue loop of `migrateGLtoGHWithFiles`
(lines 185-270). -/
def glghStep (env : GLGHEnv) (req : MigrationRequest) (acc : MigrationResult)
    (issueID : Nat) : MigrationResult :=
  match env.getIssue issueID with
  | .error e => { acc with failed := acc.failed ++ [{ originalID := issueID, error := e }] }
  | .ok issue =>
    let state := if issue.state.map Char.toLower = str "closed" then some (str "closed") else none
    match env.createIssue issue.title (glBody env req issue) issue.labels state with
    | .error e => { acc with failed := acc.failed ++ [{ originalID := issueID, error := e }] }
    | .ok newIssue =>
      let _commentResults :=
        match env.listNotes issueID with
        | .error _ => []
        | .ok notes => notes.map (fun n => env.createComment newIssue.number (glNoteBody env req n))
      { acc with success := acc.success ++
          [{ originalID := issueID, newID := newIssue.number, newURL := newIssue.htmlURL }] }

/-- Go `migrateGLtoGHWithFiles` (lines 172-273). -/
def migrateGLtoGHWithFiles (env : GLGHEnv) (req : MigrationRequest) : MigrationResult :=
  req.issueIDs.foldl (glghStep env req) ⟨[], []⟩

-- More engine lemmas: deterministic stepping and non-occurrence.

/-- When the continuation succeeds at the greedy (maximal) take, the
backtracking helper returns that result immediately. -/
theorem tryTake_first {g : Bool} {next : Str → Option (List Str × Str)} {s : Str}
    {lo k : Nat} {caps : List Str} {r : Str}
    (hlo : lo ≤ k) (h : next (s.drop k) = some (caps, r)) :
    tryTake g next s lo k = some ((if g then [s.take k] else []) ++ caps, r) := by
  match k with
  | 0 =>
    have hlo0 : lo = 0 := Nat.le_zero.mp hlo
    rw [List.drop_zero] at h
    simp only [tryTake, if_pos hlo0, h, List.take_zero]
  | k + 1 =>
    simp only [tryTake]
    rw [if_neg (by omega), h]

/-- A match of a pattern whose first piece is a literal starts with it. -/
theorem matchPieces_lit_starts {L : Str} {ps : List Piece} {s : Str} {caps : List Str} {rest : Str}
    (h : matchPieces (.lit L :: ps) s = some (caps, rest)) : L.isPrefixOf s = true := by
  simp only [matchPieces] at h
  by_cases hp : L.isPrefixOf s
  · exact hp
  · rw [if_neg hp] at h; cases h

/-- A successful match of `ps₁ ++ ps₂` yields a successful match of `ps₂`
on some suffix. -/
theorem matchPieces_append_suffix :
    ∀ (ps₁ : List Piece) {ps₂ : List Piece} {s : Str} {caps : List Str} {rest : Str},
      matchPieces (ps₁ ++ ps₂) s = some (caps, rest) →
      ∃ s', s'.IsSuffix s ∧ ∃ caps', matchPieces ps₂ s' = some (caps', rest) := by
  intro ps₁
  induction ps₁ with
  | nil =>
    intro ps₂ s caps rest h
    exact ⟨s, List.suffix_refl s, caps, h⟩
  | cons p ps₁ ih =>
    intro ps₂ s caps rest h
    match p with
    | .lit cs =>
      simp only [List.cons_append, matchPieces] at h
      by_cases hp : cs.isPrefixOf s
      · rw [if_pos hp] at h
        rcases ih h with ⟨s', hs', r⟩
        exact ⟨s', hs'.trans (List.drop_suffix _ _), r⟩
      · rw [if_neg hp] at h; cases h
    | .cls pr q g =>
      simp only [List.cons_append, matchPieces] at h
      split at h
      · cases h
      · rcases tryTake_exists _ caps rest h with ⟨kk, caps', -, -, h3, -⟩
        rcases ih h3 with ⟨s', hs', r⟩
        exact ⟨s', hs'.trans (List.drop_suffix _ _), r⟩

/-- A pattern containing the literal piece `L` can only match inside a
string that contains `L`. -/
theorem containsSub_of_matchPieces {ps₁ : List Piece} {L : Str} {ps₂ : List Piece}
    {s : Str} {caps : List Str} {rest : Str}
    (h : matchPieces (ps₁ ++ .lit L :: ps₂) s = some (caps, rest)) :
    containsSub s L = true := by
  rcases matchPieces_append_suffix ps₁ h with ⟨s', hs', caps', h'⟩
  rcases List.isPrefixOf_iff_prefix.mp (matchPieces_lit_starts h') with ⟨b, hb⟩
  rcases hs' with ⟨a, ha⟩
  exact containsSub_of_infix ⟨a, b, by rw [← ha, ← hb, List.append_assoc]⟩

/-- `containsSub` is monotone in the tail. -/
theorem containsSub_tail {c : Char} {s pat : Str}
    (h : containsSub (c :: s) pat = false) : containsSub s pat = false := by
  simp only [containsSub, Bool.or_eq_false_iff] at h
  exact h.2

/-- If the string contains no occurrence of a literal piece of the
pattern, the scanner finds nothing. -/
theorem findAllAux_nil_of_not_contains {ps₁ : List Piece} {L : Str} {ps₂ : List Piece} :
    ∀ fuel (s : Str), containsSub s L = false →
      findAllAux (ps₁ ++ .lit L :: ps₂) fuel s = [] := by
  intro fuel
  induction fuel with
  | zero => intro s _; rfl
  | succ fuel ih =>
    intro s hs
    simp only [findAllAux]
    match hm : matchPieces (ps₁ ++ .lit L :: ps₂) s with
    | some (caps, rest) =>
      exact absurd (containsSub_of_matchPieces hm) (by simp [hs])
    | none =>
      match s with
      | [] => rfl
      | c :: t => exact ih t (containsSub_tail hs)

/-- Same, for regex replacement: no occurrence of a literal piece means
the replacement is the identity. -/
theorem replaceRegexAux_id_of_not_contains {ps₁ : List Piece} {L : Str} {ps₂ : List Piece}
    {tmpl : List Str → Str} :
    ∀ fuel (s : Str), containsSub s L = false →
      replaceRegexAux (ps₁ ++ .lit L :: ps₂) tmpl fuel s = s := by
  intro fuel
  induction fuel with
  | zero => intro s _; rfl
  | succ fuel ih =>
    intro s hs
    simp only [replaceRegexAux]
    match hm : matchPieces (ps₁ ++ .lit L :: ps₂) s with
    | some (caps, rest) =>
      exact absurd (containsSub_of_matchPieces hm) (by simp [hs])
    | none =>
      match s with
      | [] => rfl
      | c :: t => exact congrArg (c :: ·) (ih t (containsSub_tail hs))

theorem replaceRegex_id_of_not_contains {ps₁ : List Piece} {L : Str} {ps₂ : List Piece}
    {tmpl : List Str → Str} {s : Str} (hs : containsSub s L = false) :
    replaceRegex (ps₁ ++ .lit L :: ps₂) tmpl s = s :=
  replaceRegexAux_id_of_not_contains _ s hs

theorem findAllSubmatch_nil_of_not_contains {ps₁ : List Piece} {L : Str} {ps₂ : List Piece}
    {s : Str} (hs : containsSub s L = false) :
    findAllSubmatch (ps₁ ++ .lit L :: ps₂) s = [] :=
  findAllAux_nil_of_not_contains _ s hs

/-- A consuming pattern never matches the empty string. -/
theorem matchPieces_nil_of_consumes {ps : List Piece} (hc : ConsumesOne ps) :
    matchPieces ps [] = none := by
  match h : matchPieces ps [] with
  | none => rfl
  | some (caps, rest) => exact absurd (matchPieces_consumes hc h) (by simp)

-- Deterministic stepping through a match.

/-- A Markdown image construct `![alt](url)`. -/
def mdImg (alt url : Str) : Str :=
  str "![" ++ alt ++ str "](" ++ url ++ str ")"

theorem takeWhile_append_cons {p : Char → Bool} {a : Str} {c : Char} {z : Str}
    (ha : ∀ x ∈ a, p x = true) (hc : p c = false) :
    (a ++ c :: z).takeWhile p = a := by
  induction a with
  | nil => simp [List.takeWhile_cons, hc]
  | cons x a ih =>
    rw [List.cons_append, List.takeWhile_cons]
    rw [ha x (List.mem_cons_self x a)]
    simp only [if_true]
    rw [ih (fun y hy => ha y (List.mem_cons_of_mem x hy))]

theorem matchPieces_lit_step {L : Str} {ps : List Piece} {z : Str} {caps : List Str} {rest : Str}
    (h : matchPieces ps z = some (caps, rest)) :
    matchPieces (.lit L :: ps) (L ++ z) = some (caps, rest) := by
  simp only [matchPieces]
  rw [if_pos (List.isPrefixOf_iff_prefix.mpr (List.prefix_append L z)), List.drop_left, h]

/-- Stepping a greedy star/plus class piece whose maximal run is exactly
`a` (the next character fails the class) when the continuation matches. -/
theorem matchPieces_cls_run {pr : Char → Bool} {q : Quant} {g : Bool} {ps : List Piece}
    {a : Str} {c : Char} {z : Str} {caps : List Str} {rest : Str}
    (hq : q = Quant.star ∨ (q = Quant.plus ∧ a ≠ []))
    (ha : ∀ x ∈ a, pr x = true) (hc : pr c = false)
    (hnext : matchPieces ps (c :: z) = some (caps, rest)) :
    matchPieces (.cls pr q g :: ps) (a ++ c :: z) =
      some ((if g then [a] else []) ++ caps, rest) := by
  have hrun : (a ++ c :: z).takeWhile pr = a := takeWhile_append_cons ha hc
  have hdrop : (a ++ c :: z).drop a.length = c :: z := List.drop_left a (c :: z)
  have htake : (a ++ c :: z).take a.length = a := List.take_left a (c :: z)
  rcases hq with hq | ⟨hq, hne⟩
  · subst hq
    simp only [matchPieces, hrun]
    rw [if_neg (by omega)]
    rw [tryTake_first (Nat.zero_le _) (by rw [hdrop]; exact hnext), htake]
  · subst hq
    have hlen : 1 ≤ a.length := List.length_pos.mpr hne
    simp only [matchPieces, hrun]
    rw [if_neg (by omega)]
    rw [tryTake_first hlen (by rw [hdrop]; exact hnext), htake]

theorem notChar_iff {x c : Char} : notChar x c = true ↔ c ≠ x := by
  simp [notChar]

theorem notChar_self {x : Char} : notChar x x = false := by simp [notChar]

/-- The Markdown-image pattern matches exactly one image construct. -/
theorem matchPieces_mdImage {a u r : Str}
    (ha : ∀ c ∈ a, c ≠ ']') (hu : u ≠ []) (hu2 : ∀ c ∈ u, c ≠ ')') :
    matchPieces mdImagePieces (mdImg a u ++ r) = some ([a, u], r) := by
  have hshape : mdImg a u ++ r =
      str "![" ++ (a ++ (']' :: ('(' :: (u ++ (')' :: r))))) := by
    simp only [mdImg, List.append_assoc]
    rfl
  rw [hshape]
  simp only [mdImagePieces]
  have h5 : matchPieces [Piece.lit (str ")")] (')' :: r) = some ([], r) :=
    matchPieces_lit_step (z := r) rfl
  have h4 : matchPieces (Piece.cls (notChar ')') .plus true :: [Piece.lit (str ")")])
      (u ++ ')' :: r) = some ([u], r) := by
    have := matchPieces_cls_run (g := true)
      (.inr ⟨rfl, hu⟩)
      (fun x hx => notChar_iff.mpr (hu2 x hx)) notChar_self h5
    simpa using this
  have h3 : matchPieces (Piece.lit (str "](") :: Piece.cls (notChar ')') .plus true ::
      [Piece.lit (str ")")]) (']' :: ('(' :: (u ++ (')' :: r)))) = some ([u], r) :=
    matchPieces_lit_step (L := str "](") h4
  have h2 : matchPieces (Piece.cls (notChar ']') .star true :: Piece.lit (str "](") ::
      Piece.cls (notChar ')') .plus true :: [Piece.lit (str ")")])
      (a ++ (']' :: ('(' :: (u ++ (')' :: r))))) = some ([a, u], r) := by
    have := matchPieces_cls_run (g := true) (.inl rfl)
      (fun x hx => notChar_iff.mpr (ha x hx)) notChar_self h3
    simpa using this
  exact matchPieces_lit_step (L := str "![") h2

/-- The Markdown-link pattern matches `[a](u)` when the link text is
nonempty. -/
theorem matchPieces_mdLink {a u r : Str}
    (hane : a ≠ []) (ha : ∀ c ∈ a, c ≠ ']') (hu : u ≠ []) (hu2 : ∀ c ∈ u, c ≠ ')') :
    matchPieces mdLinkPieces (str "[" ++ a ++ str "](" ++ u ++ str ")" ++ r) =
      some ([a, u], r) := by
  have hshape : str "[" ++ a ++ str "](" ++ u ++ str ")" ++ r =
      str "[" ++ (a ++ (']' :: ('(' :: (u ++ (')' :: r))))) := by
    simp only [List.append_assoc]
    rfl
  rw [hshape]
  simp only [mdLinkPieces]
  have h5 : matchPieces [Piece.lit (str ")")] (')' :: r) = some ([], r) :=
    matchPieces_lit_step (z := r) rfl
  have h4 : matchPieces (Piece.cls (notChar ')') .plus true :: [Piece.lit (str ")")])
      (u ++ ')' :: r) = some ([u], r) := by
    have := matchPieces_cls_run (g := true) (.inr ⟨rfl, hu⟩)
      (fun x hx => notChar_iff.mpr (hu2 x hx)) notChar_self h5
    simpa using this
  have h3 : matchPieces (Piece.lit (str "](") :: Piece.cls (notChar ')') .plus true ::
      [Piece.lit (str ")")]) (']' :: ('(' :: (u ++ (')' :: r)))) = some ([u], r) :=
    matchPieces_lit_step (L := str "](") h4
  have h2 : matchPieces (Piece.cls (notChar ']') .plus true :: Piece.lit (str "](") ::
      Piece.cls (notChar ')') .plus true :: [Piece.lit (str ")")])
      (a ++ (']' :: ('(' :: (u ++ (')' :: r))))) = some ([a, u], r) := by
    have := matchPieces_cls_run (g := true) (.inr ⟨rfl, hane⟩)
      (fun x hx => notChar_iff.mpr (ha x hx)) notChar_self h3
    simpa using this
  exact matchPieces_lit_step (L := str "[") h2

/-- The Markdown-link pattern does not match at `[](...` (the link text
class requires at least one character). -/
theorem matchPieces_mdLink_emptyAlt {w : Str} :
    matchPieces mdLinkPieces ('[' :: ']' :: w) = none := by
  have h1 : ('[' :: ']' :: w) = str "[" ++ (']' :: w) := rfl
  simp only [mdLinkPieces, matchPieces]
  rw [h1]
  rw [if_pos (List.isPrefixOf_iff_prefix.mpr (List.prefix_append (str "[") (']' :: w)))]
  rw [List.drop_left]
  have hrun : (']' :: w).takeWhile (notChar ']') = [] := by
    rw [List.takeWhile_cons, notChar_self]
    simp
  simp only [matchPieces, hrun]
  rw [if_pos (by simp)]

-- Scanning image-only bodies.

theorem consumesOne_mdImage : ConsumesOne mdImagePieces := trivial

theorem consumesOne_mdLink : ConsumesOne mdLinkPieces := trivial

theorem consumesOne_imgTag : ConsumesOne imgTagPieces := trivial

theorem consumesOne_aHref : ConsumesOne aHrefPieces := trivial

theorem consumesOne_projectUpload (g : Str) : ConsumesOne (projectUploadPieces g) := by
  match g with
  | [] => exact trivial
  | c :: g' =>
    simp only [projectUploadPieces, litGoURL, List.map_cons, List.cons_append]
    by_cases h : c = '.'
    · rw [if_pos h]; exact trivial
    · rw [if_neg h]; exact trivial

/-- One scanning step at a position with no match. -/
theorem findAllAux_step_none {ps : List Piece} {fuel : Nat} {c : Char} {t : Str}
    (hm : matchPieces ps (c :: t) = none) :
    findAllAux ps (fuel + 1) (c :: t) = findAllAux ps fuel t := by
  simp only [findAllAux, hm]

/-- One scanning step at a position with a (nonempty) match. -/
theorem findAllAux_step_some {ps : List Piece} {fuel : Nat} {m0 rest : Str} {caps : List Str}
    (hm0 : m0 ≠ []) (hm : matchPieces ps (m0 ++ rest) = some (caps, rest)) :
    findAllAux ps (fuel + 1) (m0 ++ rest) = (m0, caps) :: findAllAux ps fuel rest := by
  simp only [findAllAux, hm]
  have hlen : (m0 ++ rest).length - rest.length = m0.length := by simp
  have htake : (m0 ++ rest).take ((m0 ++ rest).length - rest.length) = m0 := by
    rw [hlen]; exact List.take_left m0 rest
  rw [htake, if_neg (by simpa [List.isEmpty_iff] using hm0)]

/-- Scanning steps over a segment that does not contain the head
character of the pattern's leading literal. -/
theorem findAllSubmatch_skip {d : Char} {L : Str} {tail : List Piece} :
    ∀ (a b : Str), (∀ c ∈ a, c ≠ d) →
      findAllSubmatch (Piece.lit (d :: L) :: tail) (a ++ b) =
        findAllSubmatch (Piece.lit (d :: L) :: tail) b := by
  intro a
  induction a with
  | nil => intro b _; rfl
  | cons c a ih =>
    intro b ha
    have hcd : c ≠ d := ha c (List.mem_cons_self c a)
    have hm : matchPieces (Piece.lit (d :: L) :: tail) (c :: (a ++ b)) = none := by
      simp only [matchPieces, List.isPrefixOf]
      rw [if_neg (by simp [beq_iff_eq]; intro h; exact absurd h.symm hcd)]
    have hfuel : (c :: (a ++ b)).length + 1 = ((a ++ b).length + 1) + 1 := by simp
    show findAllAux _ ((c :: (a ++ b)).length + 1) (c :: (a ++ b)) = _
    rw [hfuel, findAllAux_step_none hm]
    exact ih b (fun x hx => ha x (List.mem_cons_of_mem c hx))

/-- Scanning at a match position records the match and continues after it. -/
theorem findAllSubmatch_match_step {ps : List Piece} {m0 rest : Str} {caps : List Str}
    (hcons : ConsumesOne ps) (hm0 : m0 ≠ [])
    (hm : matchPieces ps (m0 ++ rest) = some (caps, rest)) :
    findAllSubmatch ps (m0 ++ rest) = (m0, caps) :: findAllSubmatch ps rest := by
  obtain ⟨k, hk⟩ : ∃ k, m0.length = k + 1 := by
    match m0, hm0 with
    | c :: m0', _ => exact ⟨m0'.length, by simp⟩
  have hfuel : (m0 ++ rest).length + 1 = (k + rest.length + 1) + 1 := by
    simp [hk]; omega
  show findAllAux _ ((m0 ++ rest).length + 1) (m0 ++ rest) = _
  rw [hfuel, findAllAux_step_some hm0 hm]
  congr 1
  exact findAllAux_fuel hcons _ (rest.length + 1) rest (by omega) le_rfl

-- ## Bodies made of Markdown images and plain text

/-- One no-match scanning step at `findAllSubmatch` level. -/
theorem findAllSubmatch_step_none {ps : List Piece} {c : Char} {t : Str}
    (hm : matchPieces ps (c :: t) = none) :
    findAllSubmatch ps (c :: t) = findAllSubmatch ps t := by
  have hfuel : (c :: t).length + 1 = (t.length + 1) + 1 := by simp
  show findAllAux _ ((c :: t).length + 1) (c :: t) = _
  rw [hfuel, findAllAux_step_none hm]
  rfl

theorem findAllSubmatch_nil {ps : List Piece} (hcons : ConsumesOne ps) :
    findAllSubmatch ps [] = [] := by
  show findAllAux ps (List.length [] + 1) [] = []
  simp [findAllAux, matchPieces_nil_of_consumes hcons]

/-- A body piece: plain text or a Markdown image. -/
inductive BodyPiece where
  | plain (s : Str) : BodyPiece
  | img (alt url : Str) : BodyPiece

/-- The text of a body piece list. -/
def bodyOf : List BodyPiece → Str
  | [] => []
  | .plain s :: ps => s ++ bodyOf ps
  | .img a u :: ps => mdImg a u ++ bodyOf ps

/-- Characters allowed in plain text between images: nothing that can
start one of the scanner's patterns. -/
def plainOK (c : Char) : Bool := c ≠ '<' && c ≠ '!' && c ≠ '['

/-- Characters allowed in an image's alt text. -/
def altOK (c : Char) : Bool := c ≠ ']' && c ≠ '<' && c ≠ '!' && c ≠ '['

/-- Characters allowed in an image's URL. -/
def urlOK (c : Char) : Bool := c ≠ ')' && c ≠ '<' && c ≠ '!' && c ≠ '['

theorem plainOK_spec {c : Char} (h : plainOK c = true) :
    c ≠ '<' ∧ c ≠ '!' ∧ c ≠ '[' := by
  simp only [plainOK, Bool.and_eq_true, decide_eq_true_eq] at h
  exact ⟨h.1.1, h.1.2, h.2⟩

theorem altOK_spec {c : Char} (h : altOK c = true) :
    c ≠ ']' ∧ c ≠ '<' ∧ c ≠ '!' ∧ c ≠ '[' := by
  simp only [altOK, Bool.and_eq_true, decide_eq_true_eq] at h
  exact ⟨h.1.1.1, h.1.1.2, h.1.2, h.2⟩

theorem urlOK_spec {c : Char} (h : urlOK c = true) :
    c ≠ ')' ∧ c ≠ '<' ∧ c ≠ '!' ∧ c ≠ '[' := by
  simp only [urlOK, Bool.and_eq_true, decide_eq_true_eq] at h
  exact ⟨h.1.1.1, h.1.1.2, h.1.2, h.2⟩

/-- Well-formedness of a body piece list: plain text, alt texts and
URLs stay inside their character sets and URLs are absolute. -/
def WFBody : List BodyPiece → Prop
  | [] => True
  | .plain s :: ps => (∀ c ∈ s, plainOK c = true) ∧ WFBody ps
  | .img a u :: ps =>
    (∀ c ∈ a, altOK c = true) ∧ (∀ c ∈ u, urlOK c = true) ∧
      isValidURL u = true ∧ WFBody ps

/-- The (alt, url) pairs of a body, in order. -/
def imgsOf : List BodyPiece → List (Str × Str)
  | [] => []
  | .plain _ :: ps => imgsOf ps
  | .img a u :: ps => (a, u) :: imgsOf ps

theorem isValidURL_ne_nil {u : Str} (h : isValidURL u = true) : u ≠ [] :=
  fun hnil => absurd (hnil ▸ h) (by decide)

/-- Pattern 2 on a well-formed body finds exactly the images, in order. -/
theorem scan_mdImage_body :
    ∀ ps, WFBody ps →
      findAllSubmatch mdImagePieces (bodyOf ps) =
        (imgsOf ps).map (fun au => (mdImg au.1 au.2, [au.1, au.2])) := by
  intro ps
  induction ps with
  | nil => intro _; exact findAllSubmatch_nil consumesOne_mdImage
  | cons p ps ih =>
    intro hwf
    match p, hwf with
    | .plain s, ⟨hs, hwf⟩ =>
      show findAllSubmatch mdImagePieces (s ++ bodyOf ps) = _
      have heq : mdImagePieces = Piece.lit ('!' :: str "[") ::
          [Piece.cls (notChar ']') .star true, Piece.lit (str "]("),
           Piece.cls (notChar ')') .plus true, Piece.lit (str ")")] := rfl
      rw [heq, findAllSubmatch_skip s (bodyOf ps)
        (fun c hc => (plainOK_spec (hs c hc)).2.1), ← heq]
      exact ih hwf
    | .img a u, ⟨ha, hu, hv, hwf⟩ =>
      show findAllSubmatch mdImagePieces (mdImg a u ++ bodyOf ps) = _
      have hm := matchPieces_mdImage (a := a) (u := u) (r := bodyOf ps)
        (fun c hc => (altOK_spec (ha c hc)).1)
        (isValidURL_ne_nil hv)
        (fun c hc => (urlOK_spec (hu c hc)).1)
      rw [findAllSubmatch_match_step consumesOne_mdImage (by simp [mdImg, str]) hm]
      simp only [imgsOf, List.map_cons]
      rw [ih hwf]

/-- Pattern 4 on a well-formed body finds exactly the nonempty-alt
images, rendered as Markdown links. -/
theorem scan_mdLink_body :
    ∀ ps, WFBody ps →
      findAllSubmatch mdLinkPieces (bodyOf ps) =
        ((imgsOf ps).filter (fun au => !au.1.isEmpty)).map
          (fun au => (str "[" ++ au.1 ++ str "](" ++ au.2 ++ str ")", [au.1, au.2])) := by
  intro ps
  induction ps with
  | nil => intro _; exact findAllSubmatch_nil consumesOne_mdLink
  | cons p ps ih =>
    intro hwf
    have heq : mdLinkPieces = Piece.lit ('[' :: []) ::
        [Piece.cls (notChar ']') .plus true, Piece.lit (str "]("),
         Piece.cls (notChar ')') .plus true, Piece.lit (str ")")] := rfl
    match p, hwf with
    | .plain s, ⟨hs, hwf⟩ =>
      show findAllSubmatch mdLinkPieces (s ++ bodyOf ps) = _
      rw [heq, findAllSubmatch_skip s (bodyOf ps)
        (fun c hc => (plainOK_spec (hs c hc)).2.2), ← heq]
      exact ih hwf
    | .img a u, ⟨ha, hu, hv, hwf⟩ =>
      show findAllSubmatch mdLinkPieces (mdImg a u ++ bodyOf ps) = _
      have hub : ∀ c ∈ u, c ≠ ')' := fun c hc => (urlOK_spec (hu c hc)).1
      have hab : ∀ c ∈ a, c ≠ ']' := fun c hc => (altOK_spec (ha c hc)).1
      have hshape : mdImg a u ++ bodyOf ps =
          '!' :: (str "[" ++ a ++ str "](" ++ u ++ str ")" ++ bodyOf ps) := by
        simp only [mdImg]
        rw [show (str "![") = '!' :: str "[" from rfl]
        simp [List.append_assoc]
      have hbang : matchPieces mdLinkPieces
          ('!' :: (str "[" ++ a ++ str "](" ++ u ++ str ")" ++ bodyOf ps)) = none := by
        rw [heq]
        simp [matchPieces, List.isPrefixOf]
      rw [hshape, findAllSubmatch_step_none hbang]
      by_cases hae : a = []
      · subst hae
        have hS : str "[" ++ [] ++ str "](" ++ u ++ str ")" ++ bodyOf ps =
            '[' :: ']' :: (('(' :: (u ++ [')'])) ++ bodyOf ps) := by
          rw [show (str "[") = ['['] from rfl, show (str "](") = [']', '('] from rfl,
            show (str ")") = [')'] from rfl]
          simp
        rw [hS, findAllSubmatch_step_none matchPieces_mdLink_emptyAlt]
        have hS2 : (']' :: (('(' :: (u ++ [')'])) ++ bodyOf ps)) =
            (']' :: '(' :: (u ++ [')'])) ++ bodyOf ps := by simp
        have hseg : ∀ c ∈ (']' :: '(' :: (u ++ [')'])), c ≠ '[' := by
          intro c hc
          rcases List.mem_cons.mp hc with rfl | hc
          · decide
          · rcases List.mem_cons.mp hc with rfl | hc
            · decide
            · rcases List.mem_append.mp hc with hc | hc
              · exact (urlOK_spec (hu c hc)).2.2.2
              · rcases List.mem_singleton.mp hc with rfl; decide
        rw [hS2, heq, findAllSubmatch_skip _ (bodyOf ps) hseg, ← heq]
        simp only [imgsOf, List.filter_cons]
        rw [if_neg (by simp)]
        exact ih hwf
      · have hm := matchPieces_mdLink (a := a) (u := u) (r := bodyOf ps)
          hae hab (isValidURL_ne_nil hv) hub
        have hM0ne : str "[" ++ a ++ str "](" ++ u ++ str ")" ≠ [] := by
          intro h
          have := congrArg List.length h
          simp [str] at this
        rw [findAllSubmatch_match_step consumesOne_mdLink hM0ne hm]
        simp only [imgsOf, List.filter_cons]
        rw [if_pos (by simp [List.isEmpty_iff, hae])]
        simp only [List.map_cons]
        rw [ih hwf]

-- Scanner invariants (shared dedup via `seen`).

theorem foldl_preserve {σ α : Type _} (P : σ → Prop) (f : σ → α → σ)
    (hstep : ∀ s a, P s → P (f s a)) : ∀ (l : List α) (s), P s → P (l.foldl f s) := by
  intro l
  induction l with
  | nil => intro s h; exact h
  | cons a l ih => intro s h; exact ih _ (hstep s a h)

/-- Invariant of the scanner state: collected URLs are distinct, all
recorded in `seen`, and every collected reference is a valid URL. -/
def ScanInv (st : List AttachmentInfo × List Str) : Prop :=
  (st.1.map AttachmentInfo.URL).Nodup ∧ (∀ a ∈ st.1, a.URL ∈ st.2) ∧
    (∀ a ∈ st.1, isValidURL a.URL = true)

theorem addIfNew_inv {st : List AttachmentInfo × List Str} {ok : Bool} {u : Str}
    {info : AttachmentInfo} (hurl : info.URL = u)
    (hok : ok = true → isValidURL u = true) (h : ScanInv st) :
    ScanInv (addIfNew st ok u info) := by
  obtain ⟨h1, h2, h3⟩ := h
  unfold addIfNew
  by_cases hcond : ¬ st.2.contains u ∧ ok = true
  · rw [if_pos hcond]
    have hnotseen : u ∉ st.2 := fun hmem =>
      hcond.1 (List.elem_iff.mpr hmem)
    refine ⟨?_, ?_, ?_⟩
    · rw [List.map_append]
      simp only [List.map_cons, List.map_nil, hurl]
      rw [List.nodup_append]
      refine ⟨h1, List.nodup_singleton u, ?_⟩
      intro x hx hy
      rcases List.mem_singleton.mp hy with rfl
      rcases List.mem_map.mp hx with ⟨a, ha, hxa⟩
      exact hnotseen (hxa ▸ h2 a ha)
    · intro a ha
      rcases List.mem_append.mp ha with ha | ha
      · exact List.mem_append_left _ (h2 a ha)
      · rcases List.mem_singleton.mp ha with rfl
        rw [hurl]
        exact List.mem_append_right _ (List.mem_singleton.mpr rfl)
    · intro a ha
      rcases List.mem_append.mp ha with ha | ha
      · exact h3 a ha
      · rcases List.mem_singleton.mp ha with rfl
        rw [hurl]; exact hok hcond.2
  · rw [if_neg hcond]; exact ⟨h1, h2, h3⟩

theorem scanPass1_inv {content : Str} {st} (h : ScanInv st) :
    ScanInv (scanPass1 content st) := by
  refine foldl_preserve ScanInv _ ?_ _ _ h
  intro s m hs
  match m.2.head? with
  | some u => exact addIfNew_inv rfl (fun h => h) hs
  | none => exact hs

theorem scanPass2_inv {content : Str} {st} (h : ScanInv st) :
    ScanInv (scanPass2 content st) := by
  refine foldl_preserve ScanInv _ ?_ _ _ h
  intro s m hs
  match m.2.get? 1 with
  | some u => exact addIfNew_inv rfl (fun h => h) hs
  | none => exact hs

theorem scanPass3_inv {content : Str} {st} (h : ScanInv st) :
    ScanInv (scanPass3 content st) := by
  refine foldl_preserve ScanInv _ ?_ _ _ h
  intro s m hs
  match m.2.head? with
  | some u =>
    refine addIfNew_inv rfl (fun hb => ?_) hs
    simp only [Bool.and_eq_true] at hb
    exact hb.1
  | none => exact hs

theorem scanPass4_inv {content : Str} {st} (h : ScanInv st) :
    ScanInv (scanPass4 content st) := by
  refine foldl_preserve ScanInv _ ?_ _ _ h
  intro s m hs
  match m.2.get? 1 with
  | some u =>
    refine addIfNew_inv rfl (fun hb => ?_) hs
    simp only [Bool.and_eq_true] at hb
    exact hb.1.2
  | none => exact hs

theorem findAllAttachments_inv (content : Str) :
    ScanInv (scanPass4 content (scanPass3 content (scanPass2 content
      (scanPass1 content ([], []))))) :=
  scanPass4_inv (scanPass3_inv (scanPass2_inv (scanPass1_inv
    ⟨List.nodup_nil, by simp, by simp⟩)))

/-- The scanner returns at most one reference per distinct URL. -/
theorem findAllAttachments_nodup (content : Str) :
    ((findAllAttachments content).map AttachmentInfo.URL).Nodup :=
  (findAllAttachments_inv content).1

/-- Every reference the scanner returns has an absolute http(s) URL. -/
theorem findAllAttachments_valid {content : Str} {a : AttachmentInfo}
    (h : a ∈ findAllAttachments content) : isValidURL a.URL = true :=
  (findAllAttachments_inv content).2.2 a h

-- The scanner on image-only bodies.

theorem wfBody_no_lt : ∀ ps, WFBody ps → '<' ∉ bodyOf ps := by
  intro ps
  induction ps with
  | nil => intro _; simp [bodyOf]
  | cons p ps ih =>
    intro hwf
    match p, hwf with
    | .plain s, ⟨hs, hwf⟩ =>
      intro hmem
      rcases List.mem_append.mp hmem with hmem | hmem
      · exact (plainOK_spec (hs _ hmem)).1 rfl
      · exact ih hwf hmem
    | .img a u, ⟨ha, hu, hv, hwf⟩ =>
      intro hmem
      rcases List.mem_append.mp hmem with hmem | hmem
      · simp only [mdImg, List.append_assoc, List.mem_append] at hmem
        rcases hmem with hmem | hmem | hmem | hmem | hmem
        · simp [str] at hmem
        · exact (altOK_spec (ha _ hmem)).2.1 rfl
        · simp [str] at hmem
        · exact (urlOK_spec (hu _ hmem)).2.1 rfl
        · simp [str] at hmem
      · exact ih hwf hmem

theorem scan_imgTag_body {ps : List BodyPiece} (hwf : WFBody ps) :
    findAllSubmatch imgTagPieces (bodyOf ps) = [] := by
  have heq : imgTagPieces = [] ++ Piece.lit (str "<img") ::
      [Piece.cls (notChar '>') .star false, Piece.cls goSpace .once false,
       Piece.lit (str "src="), Piece.cls quoteChar .once false,
       Piece.cls (fun c => !quoteChar c) .plus true,
       Piece.cls quoteChar .once false, Piece.cls (notChar '>') .star false,
       Piece.lit (str ">")] := rfl
  rw [heq]
  apply findAllSubmatch_nil_of_not_contains
  rw [show str "<img" = '<' :: str "img" from rfl]
  exact containsSub_eq_false_of_head_not_mem (wfBody_no_lt ps hwf)

theorem scan_aHref_body {ps : List BodyPiece} (hwf : WFBody ps) :
    findAllSubmatch aHrefPieces (bodyOf ps) = [] := by
  have heq : aHrefPieces = [] ++ Piece.lit (str "<a") ::
      [Piece.cls (notChar '>') .star false, Piece.cls goSpace .once false,
       Piece.lit (str "href="), Piece.cls quoteChar .once false,
       Piece.cls (fun c => !quoteChar c) .plus true,
       Piece.cls quoteChar .once false, Piece.cls (notChar '>') .star false,
       Piece.lit (str ">"), Piece.cls (notChar '<') .star true,
       Piece.lit (str "</a>")] := rfl
  rw [heq]
  apply findAllSubmatch_nil_of_not_contains
  rw [show str "<a" = '<' :: str "a" from rfl]
  exact containsSub_eq_false_of_head_not_mem (wfBody_no_lt ps hwf)

theorem scanPass1_id {content : Str} {st} (h : findAllSubmatch imgTagPieces content = []) :
    scanPass1 content st = st := by
  simp [scanPass1, h]

theorem scanPass3_id {content : Str} {st} (h : findAllSubmatch aHrefPieces content = []) :
    scanPass3 content st = st := by
  simp [scanPass3, h]

/-- The dedup fold over the images of a body (what pass 2 amounts to). -/
def imgFold (imgs : List (Str × Str)) (st : List AttachmentInfo × List Str) :
    List AttachmentInfo × List Str :=
  imgs.foldl
    (fun st au => addIfNew st (isValidURL au.2) au.2 ⟨au.2, [], true, mdImg au.1 au.2⟩) st

theorem scanPass2_body {ps : List BodyPiece} (hwf : WFBody ps) (st) :
    scanPass2 (bodyOf ps) st = imgFold (imgsOf ps) st := by
  unfold scanPass2 imgFold
  rw [scan_mdImage_body ps hwf, List.foldl_map]
  rfl

theorem addIfNew_seen_sub {st : List AttachmentInfo × List Str} {ok : Bool} {u : Str}
    {info : AttachmentInfo} : st.2 ⊆ (addIfNew st ok u info).2 := by
  unfold addIfNew
  split
  · exact fun x hx => List.mem_append_left _ hx
  · exact fun x hx => hx

theorem addIfNew_contains_noop {st : List AttachmentInfo × List Str} {ok : Bool} {u : Str}
    {info : AttachmentInfo} (h : u ∈ st.2) : addIfNew st ok u info = st := by
  unfold addIfNew
  rw [if_neg (fun hcond => hcond.1 (List.elem_iff.mpr h))]

theorem imgFold_seen_sub (imgs : List (Str × Str)) :
    ∀ st, st.2 ⊆ (imgFold imgs st).2 := by
  induction imgs with
  | nil => intro st; exact fun x hx => hx
  | cons au imgs ih =>
    intro st
    exact fun x hx => ih _ (addIfNew_seen_sub hx)

theorem imgFold_seen_mem (imgs : List (Str × Str)) :
    ∀ st, ∀ au ∈ imgs, isValidURL au.2 = true → au.2 ∈ (imgFold imgs st).2 := by
  induction imgs with
  | nil => intro st au h; simp at h
  | cons bu imgs ih =>
    intro st au hmem hval
    rcases List.mem_cons.mp hmem with rfl | hmem
    · show au.2 ∈ (imgFold imgs (addIfNew st (isValidURL au.2) au.2 _)).2
      apply imgFold_seen_sub
      unfold addIfNew
      by_cases hc : ¬ st.2.contains au.2 ∧ isValidURL au.2 = true
      · rw [if_pos hc]
        exact List.mem_append_right _ (List.mem_singleton.mpr rfl)
      · rw [if_neg hc]
        rcases not_and_or.mp hc with hc | hc
        · exact List.elem_iff.mp (Bool.of_not_eq_false (by simpa using hc))
        · exact absurd hval hc
    · exact ih _ au hmem hval

theorem wfBody_imgs_valid : ∀ ps, WFBody ps → ∀ au ∈ imgsOf ps, isValidURL au.2 = true := by
  intro ps
  induction ps with
  | nil => intro _ au h; simp [imgsOf] at h
  | cons p ps ih =>
    intro hwf au hmem
    match p, hwf with
    | .plain s, ⟨_, hwf⟩ => exact ih hwf au hmem
    | .img a u, ⟨_, _, hv, hwf⟩ =>
      rcases List.mem_cons.mp hmem with rfl | hmem
      · exact hv
      · exact ih hwf au hmem

theorem foldl_noop {σ α : Type _} (f : σ → α → σ) :
    ∀ (l : List α) (s : σ), (∀ a ∈ l, f s a = s) → l.foldl f s = s := by
  intro l
  induction l with
  | nil => intro s _; rfl
  | cons a l ih =>
    intro s h
    rw [List.foldl_cons, h a (List.mem_cons_self a l)]
    exact ih s (fun x hx => h x (List.mem_cons_of_mem a hx))

/-- Pass 4 is a no-op on a state whose `seen` set already holds every
key it would consider. -/
theorem scanPass4_noop {content : Str} {st : List AttachmentInfo × List Str}
    (h : ∀ m ∈ findAllSubmatch mdLinkPieces content, ∀ u, m.2.get? 1 = some u → u ∈ st.2) :
    scanPass4 content st = st := by
  unfold scanPass4
  apply foldl_noop
  intro m hm
  cases hg : m.2.get? 1 with
  | none => simp only [hg]
  | some u =>
    simp only [hg]
    exact addIfNew_contains_noop (h m hm u hg)

/-- The scanner on a well-formed image body is the dedup fold over its
images. -/
theorem findAllAttachments_body {ps : List BodyPiece} (hwf : WFBody ps) :
    findAllAttachments (bodyOf ps) = (imgFold (imgsOf ps) ([], [])).1 := by
  unfold findAllAttachments
  rw [scanPass1_id (scan_imgTag_body hwf), scanPass2_body hwf,
    scanPass3_id (scan_aHref_body hwf)]
  rw [scanPass4_noop]
  intro m hm u hu
  rw [scan_mdLink_body ps hwf] at hm
  rcases List.mem_map.mp hm with ⟨au, hau, rfl⟩
  have hau2 : au ∈ imgsOf ps := List.mem_of_mem_filter hau
  have hueq : au.2 = u := by simpa using hu
  subst hueq
  exact imgFold_seen_mem (imgsOf ps) ([], []) au hau2
    (wfBody_imgs_valid ps hwf au hau2)

-- Membership and counting in the dedup fold.

theorem imgFold_seen_iff (imgs : List (Str × Str))
    (hval : ∀ au ∈ imgs, isValidURL au.2 = true) :
    ∀ st u, u ∈ (imgFold imgs st).2 ↔ u ∈ st.2 ∨ u ∈ imgs.map Prod.snd := by
  induction imgs with
  | nil => intro st u; simp [imgFold]
  | cons bu imgs ih =>
    intro st u
    have hbv : isValidURL bu.2 = true := hval bu (List.mem_cons_self bu imgs)
    have htail : ∀ au ∈ imgs, isValidURL au.2 = true :=
      fun au ha => hval au (List.mem_cons_of_mem bu ha)
    show u ∈ (imgFold imgs (addIfNew st (isValidURL bu.2) bu.2 _)).2 ↔ _
    rw [ih htail]
    unfold addIfNew
    by_cases hc : ¬ st.2.contains bu.2 ∧ isValidURL bu.2 = true
    · rw [if_pos hc]
      simp only [List.mem_append, List.mem_singleton, List.map_cons, List.mem_cons]
      tauto
    · rw [if_neg hc]
      have hin : bu.2 ∈ st.2 := by
        rcases not_and_or.mp hc with hc | hc
        · exact List.elem_iff.mp (Bool.of_not_eq_false (by simpa using hc))
        · exact absurd hbv hc
      simp only [List.map_cons, List.mem_cons]
      constructor
      · tauto
      · rintro (h | rfl | h)
        · exact Or.inl h
        · exact Or.inl hin
        · exact Or.inr h

theorem imgFold_map_eq (imgs : List (Str × Str)) :
    ∀ st, st.1.map AttachmentInfo.URL = st.2 →
      (imgFold imgs st).1.map AttachmentInfo.URL = (imgFold imgs st).2 := by
  induction imgs with
  | nil => intro st h; exact h
  | cons bu imgs ih =>
    intro st h
    show (imgFold imgs (addIfNew st _ bu.2 _)).1.map _ = (imgFold imgs (addIfNew st _ bu.2 _)).2
    apply ih
    unfold addIfNew
    split
    · simp [h]
    · exact h

theorem imgFold_isImage (imgs : List (Str × Str)) :
    ∀ st, (∀ a ∈ st.1, a.IsImage = true) →
      ∀ a ∈ (imgFold imgs st).1, a.IsImage = true := by
  induction imgs with
  | nil => intro st h; exact h
  | cons bu imgs ih =>
    intro st h
    apply ih
    intro a ha
    simp only [addIfNew] at ha
    split at ha
    · rcases List.mem_append.mp ha with ha | ha
      · exact h a ha
      · rcases List.mem_singleton.mp ha with rfl; rfl
    · exact h a ha

theorem countP_eq_of_nodup_map {l : List AttachmentInfo} (u : Str)
    (h : (l.map AttachmentInfo.URL).Nodup) :
    l.countP (fun a => decide (a.URL = u)) =
      if u ∈ l.map AttachmentInfo.URL then 1 else 0 := by
  induction l with
  | nil => simp
  | cons a l ih =>
    simp only [List.map_cons, List.nodup_cons] at h
    rw [List.countP_cons, ih h.2]
    by_cases hau : a.URL = u
    · subst hau
      rw [if_neg h.1]
      simp
    · have h1 : decide (a.URL = u) = false := by simp [hau]
      rw [h1, List.map_cons]
      by_cases hm : u ∈ List.map AttachmentInfo.URL l
      · rw [if_pos hm,
          if_pos (show u ∈ AttachmentInfo.URL a :: List.map AttachmentInfo.URL l from
            List.mem_cons_of_mem _ hm)]
        simp
      · rw [if_neg hm,
          if_neg (show u ∉ AttachmentInfo.URL a :: List.map AttachmentInfo.URL l from
            fun hc => by
              rcases List.mem_cons.mp hc with rfl | hc
              · exact hau rfl
              · exact hm hc)]
        simp

/-- The scanner on a single well-formed Markdown image. -/
theorem findAllAttachments_single {alt url : Str}
    (ha : ∀ c ∈ alt, altOK c = true) (hu : ∀ c ∈ url, urlOK c = true)
    (hv : isValidURL url = true) :
    findAllAttachments (mdImg alt url) =
      [⟨url, [], true, mdImg alt url⟩] := by
  have hbody : mdImg alt url = bodyOf [.img alt url] := by simp [bodyOf]
  have hwf : WFBody [BodyPiece.img alt url] := by exact ⟨ha, hu, hv, trivial⟩
  rw [hbody, findAllAttachments_body hwf]
  show (addIfNew ([], []) (isValidURL url) url _).1 = _
  unfold addIfNew
  rw [if_pos ⟨by simp, hv⟩]
  simp [← hbody]

-- Replacement and occurrence counting.

theorem replaceAllAux_append_tail {d : Char} {p' new : Str} :
    ∀ (A : Str) (f : Nat), (A ++ (d :: p')).length ≤ f → (∀ c ∈ A, c ≠ d) →
      replaceAllAux (d :: p') new f (A ++ (d :: p')) = A ++ new := by
  intro A
  induction A with
  | nil =>
    intro f hf _
    match f, hf with
    | f' + 1, _ =>
      show replaceAllAux (d :: p') new (f' + 1) (d :: p') = new
      simp only [replaceAllAux]
      rw [if_pos (List.isPrefixOf_iff_prefix.mpr (List.prefix_refl _))]
      have : (d :: p').drop (d :: p').length = [] := by simp
      rw [this]
      match f' with
      | 0 => simp [replaceAllAux]
      | _ + 1 => simp [replaceAllAux]
  | cons c A ih =>
    intro f hf ha
    match f, hf with
    | f' + 1, hf =>
      show replaceAllAux (d :: p') new (f' + 1) (c :: (A ++ (d :: p'))) = c :: (A ++ new)
      simp only [replaceAllAux]
      rw [if_neg (fun hp => by
        have hd : d = c := by
          rcases List.isPrefixOf_iff_prefix.mp hp with ⟨t, ht⟩
          exact (List.cons.injEq _ _ _ _).mp (by simpa using ht) |>.1
        exact ha c (List.mem_cons_self c A) hd.symm)]
      congr 1
      apply ih
      · simp only [List.length_cons, List.length_append] at hf ⊢
        omega
      · exact fun x hx => ha x (List.mem_cons_of_mem c hx)

/-- Replacing the unique trailing occurrence of a pattern. -/
theorem replaceAll_append_tail {A : Str} {d : Char} {p' new : Str}
    (ha : ∀ c ∈ A, c ≠ d) :
    replaceAll (A ++ (d :: p')) (d :: p') new = A ++ new := by
  simp only [replaceAll]
  exact replaceAllAux_append_tail A _ le_rfl ha

theorem countOcc_cons (c : Char) (s p : Str) :
    countOcc (c :: s) p = (if p.isPrefixOf (c :: s) then 1 else 0) + countOcc s p := by
  unfold countOcc
  rw [show (c :: s).length + 1 = (s.length + 1) + 1 from by simp]
  rw [List.range_succ_eq_map, List.countP_cons, List.countP_map]
  have hfun : ((fun i => p.isPrefixOf ((c :: s).drop i)) ∘ Nat.succ) =
      (fun i => p.isPrefixOf (s.drop i)) := by
    funext i
    simp [Function.comp]
  rw [hfun]
  simp only [List.drop_zero]
  omega

theorem countOcc_append_of_head {B : Str} {d : Char} {p' : Str} :
    ∀ (A : Str), (∀ c ∈ A, c ≠ d) →
      countOcc (A ++ B) (d :: p') = countOcc B (d :: p') := by
  intro A
  induction A with
  | nil => intro _; rfl
  | cons c A ih =>
    intro ha
    rw [List.cons_append, countOcc_cons]
    rw [if_neg (fun hp => by
      have hd : d = c := by
        rcases List.isPrefixOf_iff_prefix.mp hp with ⟨t, ht⟩
        exact (List.cons.injEq _ _ _ _).mp (by simpa using ht) |>.1
      exact ha c (List.mem_cons_self c A) hd.symm)]
    rw [ih (fun x hx => ha x (List.mem_cons_of_mem c hx))]
    omega

theorem countOcc_self_append_singleton {p : Str} {x : Char}
    (hp : p ≠ []) (hx : x ∉ p) : countOcc (p ++ [x]) p = 1 := by
  match p, hp with
  | d :: p'', _ =>
    rw [List.cons_append, countOcc_cons]
    rw [if_pos (List.isPrefixOf_iff_prefix.mpr ⟨[x], by simp⟩)]
    have hzero : countOcc (p'' ++ [x]) (d :: p'') = 0 := by
      unfold countOcc
      apply List.countP_eq_zero.mpr
      intro i _
      simp only [Bool.not_eq_true]
      by_contra hne
      have hpre := List.isPrefixOf_iff_prefix.mp (Bool.of_not_eq_false hne)
      have hlen := hpre.length_le
      rw [List.length_drop] at hlen
      simp only [List.length_cons, List.length_append, List.length_nil] at hlen
      have hi : i = 0 := by omega
      subst hi
      rw [List.drop_zero] at hpre
      have heq : d :: p'' = p'' ++ [x] :=
        hpre.eq_of_length (by simp)
      exact hx (heq ▸ List.mem_append_right p'' (List.mem_singleton.mpr rfl))
    rw [hzero]

-- URL map lemmas.

theorem buildUrlMap_skip {env : AttachEnv} {a : AttachmentInfo} {atts : List AttachmentInfo}
    {projectID : Nat} {token baseURL sourceToken : Str}
    (h : attachSucceeds env a projectID token baseURL sourceToken = none) :
    buildUrlMap env (a :: atts) projectID token baseURL sourceToken =
      buildUrlMap env atts projectID token baseURL sourceToken := by
  unfold buildUrlMap
  rw [List.foldl_cons]
  congr 1
  unfold urlMapStep
  rw [h]

theorem buildUrlMap_nil_of_all_fail {env : AttachEnv} {atts : List AttachmentInfo}
    {projectID : Nat} {token baseURL sourceToken : Str}
    (h : ∀ a ∈ atts, attachSucceeds env a projectID token baseURL sourceToken = none) :
    buildUrlMap env atts projectID token baseURL sourceToken = [] := by
  unfold buildUrlMap
  apply foldl_noop
  intro a ha
  unfold urlMapStep
  rw [h a ha]

theorem buildUrlMap_mem (env : AttachEnv) (projectID : Nat) (token baseURL sourceToken : Str) :
    ∀ (atts : List AttachmentInfo) (m : List (Str × AttachmentInfo)) (u : Str)
      (inf : AttachmentInfo),
      (u, inf) ∈ atts.foldl (urlMapStep env projectID token baseURL sourceToken) m →
      (u, inf) ∈ m ∨ ∃ a ∈ atts, a.URL = u ∧
        attachSucceeds env a projectID token baseURL sourceToken ≠ none := by
  intro atts
  induction atts with
  | nil => intro m u inf h; exact Or.inl h
  | cons a atts ih =>
    intro m u inf h
    rw [List.foldl_cons] at h
    rcases ih _ u inf h with h' | ⟨b, hb, hbu, hbs⟩
    · unfold urlMapStep at h'
      match hs : attachSucceeds env a projectID token baseURL sourceToken with
      | some newURL =>
        rw [hs] at h'
        rcases List.mem_append.mp h' with h' | h'
        · exact Or.inl h'
        · rcases List.mem_singleton.mp h' with heq
          have : a.URL = u := congrArg Prod.fst heq |>.symm
          exact Or.inr ⟨a, List.mem_cons_self a atts, this, by rw [hs]; simp⟩
      | none => rw [hs] at h'; exact Or.inl h'
    · exact Or.inr ⟨b, List.mem_cons_of_mem a hb, hbu, hbs⟩

/-- A failed attachment (from a scanned body) contributes no URL-map
entry. -/
theorem buildUrlMap_not_mem_of_fail {env : AttachEnv} {content : Str} {a : AttachmentInfo}
    {projectID : Nat} {token baseURL sourceToken : Str}
    (ha : a ∈ findAllAttachments content)
    (hf : attachSucceeds env a projectID token baseURL sourceToken = none) :
    ∀ inf, (a.URL, inf) ∉
      buildUrlMap env (findAllAttachments content) projectID token baseURL sourceToken := by
  intro inf hmem
  rcases buildUrlMap_mem env projectID token baseURL sourceToken _ [] a.URL inf hmem with
    h | ⟨b, hb, hbu, hbs⟩
  · simp at h
  · have hba : b = a :=
      List.inj_on_of_nodup_map (findAllAttachments_nodup content) hb ha hbu
    rw [hba] at hbs
    exact hbs hf

theorem rewriteWithMap_nil (content : Str) : rewriteWithMap content [] = content := rfl

/-- When every attachment of a body fails, `processAttachments` returns
the body unchanged. -/
theorem processAttachments_id_of_all_fail {env : AttachEnv} {content : Str}
    {projectID : Nat} {token baseURL sourceToken : Str}
    (h : ∀ a ∈ findAllAttachments content,
      attachSucceeds env a projectID token baseURL sourceToken = none) :
    processAttachments env content projectID token baseURL sourceToken = content := by
  unfold processAttachments
  by_cases hc : content = []
  · rw [if_pos hc]
  · rw [if_neg hc]
    by_cases hl : (findAllAttachments content).length = 0
    · simp only [hl, if_pos rfl]
      simp
    · simp only [if_neg hl]
      rw [buildUrlMap_nil_of_all_fail h, rewriteWithMap_nil]

-- Orchestrator ledger lemmas.

theorem ghglStep_shape (env : GHGLEnv) (req : MigrationRequest) (acc : MigrationResult)
    (id : Nat) :
    ∃ st : MigrationStatus, st.originalID = id ∧
      (ghglStep env req acc id = ⟨acc.success ++ [st], acc.failed⟩ ∨
       ghglStep env req acc id = ⟨acc.success, acc.failed ++ [st]⟩) := by
  cases hgi : env.getIssue id with
  | error e =>
    exact ⟨{ originalID := id, error := e }, rfl,
      Or.inr (by simp only [ghglStep, hgi])⟩
  | ok issue =>
    cases hci : env.createIssue req.target.projectID issue.title
        (ghDescription env req issue) issue.labels with
    | error e =>
      exact ⟨{ originalID := id, error := e }, rfl,
        Or.inr (by simp only [ghglStep, hgi, hci])⟩
    | ok ni =>
      exact ⟨{ originalID := id, newID := ni.iid, newURL := ni.webURL }, rfl,
        Or.inl (by simp only [ghglStep, hgi, hci])⟩

theorem glghStep_shape (env : GLGHEnv) (req : MigrationRequest) (acc : MigrationResult)
    (id : Nat) :
    ∃ st : MigrationStatus, st.originalID = id ∧
      (glghStep env req acc id = ⟨acc.success ++ [st], acc.failed⟩ ∨
       glghStep env req acc id = ⟨acc.success, acc.failed ++ [st]⟩) := by
  cases hgi : env.getIssue id with
  | error e =>
    exact ⟨{ originalID := id, error := e }, rfl,
      Or.inr (by simp only [glghStep, hgi])⟩
  | ok issue =>
    cases hci : env.createIssue issue.title (glBody env req issue) issue.labels
        (if issue.state.map Char.toLower = str "closed" then some (str "closed") else none) with
    | error e =>
      exact ⟨{ originalID := id, error := e }, rfl,
        Or.inr (by simp only [glghStep, hgi, hci])⟩
    | ok ni =>
      exact ⟨{ originalID := id, newID := ni.number, newURL := ni.htmlURL }, rfl,
        Or.inl (by simp only [glghStep, hgi, hci])⟩

/-- Ledger arithmetic for any per-issue step that appends exactly one
status to exactly one list. -/
theorem fold_ledger {step : MigrationResult → Nat → MigrationResult}
    (hshape : ∀ acc id, ∃ st : MigrationStatus, st.originalID = id ∧
      (step acc id = ⟨acc.success ++ [st], acc.failed⟩ ∨
       step acc id = ⟨acc.success, acc.failed ++ [st]⟩)) :
    ∀ (ids : List Nat) (acc : MigrationResult),
      ((ids.foldl step acc).success.length + (ids.foldl step acc).failed.length =
        acc.success.length + acc.failed.length + ids.length) ∧
      (∀ id : Nat,
        (ids.foldl step acc).success.countP (fun st => decide (st.originalID = id)) +
          (ids.foldl step acc).failed.countP (fun st => decide (st.originalID = id)) =
        acc.success.countP (fun st => decide (st.originalID = id)) +
          acc.failed.countP (fun st => decide (st.originalID = id)) +
          ids.countP (fun i => decide (i = id))) := by
  intro ids
  induction ids with
  | nil => intro acc; simp
  | cons i ids ih =>
    intro acc
    rw [List.foldl_cons]
    obtain ⟨st, hst, hcase⟩ := hshape acc i
    constructor
    · have h1 := (ih (step acc i)).1
      rcases hcase with h | h <;> rw [h] at h1 ⊢ <;>
        simp only [List.length_append, List.length_cons, List.length_nil] at h1 ⊢ <;>
        omega
    · intro id
      have h2 := (ih (step acc i)).2 id
      have hcnt : (List.countP (fun st => decide (st.originalID = id)) [st] : Nat) =
          if i = id then 1 else 0 := by
        simp [List.countP_cons, hst]
      rw [List.countP_cons]
      rcases hcase with h | h <;> rw [h] at h2 ⊢ <;>
        simp only [List.countP_append, hcnt, decide_eq_true_eq] at h2 ⊢ <;>
        omega

theorem countP_eq_of_nodup {α : Type _} [DecidableEq α] :
    ∀ (l : List α), l.Nodup → ∀ x : α,
      l.countP (fun y => decide (y = x)) = if x ∈ l then 1 else 0 := by
  intro l
  induction l with
  | nil => intro _ x; simp
  | cons a l ih =>
    intro h x
    rw [List.nodup_cons] at h
    rw [List.countP_cons, ih h.2 x]
    by_cases hax : a = x
    · subst hax
      rw [if_neg h.1, if_pos (List.mem_cons_self a l)]
      simp
    · have hd : (decide (a = x)) = false := by simp [hax]
      rw [hd]
      simp only [List.mem_cons]
      by_cases hm : x ∈ l
      · rw [if_pos hm, if_pos (Or.inr hm)]
        simp
      · have hcond : ¬ (x = a ∨ x ∈ l) := by
          rintro (hc | hc)
          · exact hax hc.symm
          · exact hm hc
        rw [if_neg hm, if_neg hcond]
        simp

-- GitLab-to-GitHub loop lemmas.

/-- Without a GitHub session credential, one loop iteration changes
nothing: the code skips before any upload attempt. -/
theorem glLoopStep_noSession {env : GLEnv}
    {gitlabToken githubToken gitlabSession githubOwner githubRepo : Str}
    {st : GLLoopState} {a : GitLabAttachment} :
    glLoopStep env gitlabToken githubToken [] gitlabSession githubOwner githubRepo st a = st := by
  unfold glLoopStep
  cases env.download a.URL (glDownloadAuth gitlabSession gitlabToken) with
  | reqErr e => rfl
  | netErr e => rfl
  | httpStatus code rd =>
    dsimp only
    split
    · rfl
    · match rd with
      | .error e => rfl
      | .ok data => simp

theorem glLoopResult_noSession (env : GLEnv) (content1 gitlabURL : Str)
    (gitlabToken githubToken gitlabSession githubOwner githubRepo : Str) :
    glLoopResult env content1 gitlabURL gitlabToken githubToken [] gitlabSession
      githubOwner githubRepo = ⟨content1, [], []⟩ := by
  unfold glLoopResult
  exact foldl_noop _ _ _ (fun a _ => glLoopStep_noSession)

/-- Without a GitHub session, the whole GitLab-to-GitHub body processing
is exactly the URL normalization. -/
theorem processGitLabToGitHub_noSession (env : GLEnv) (content gitlabURL : Str)
    (projectID : Nat) (gitlabToken githubToken gitlabSession githubOwner githubRepo : Str) :
    processGitLabToGitHub env content gitlabURL projectID gitlabToken githubToken []
      gitlabSession githubOwner githubRepo =
      fixGitLabAttachmentURLs content gitlabURL projectID := by
  unfold processGitLabToGitHub
  by_cases hc : content = []
  · rw [if_pos hc]
    subst hc
    unfold fixGitLabAttachmentURLs
    rw [if_pos rfl]
  · rw [if_neg hc]
    by_cases hl : (findGitLabAttachments (fixGitLabAttachmentURLs content gitlabURL projectID)
        gitlabURL).length = 0
    · simp only [hl, if_pos rfl]
      simp
    · simp only [if_neg hl]
      rw [glLoopResult_noSession]
      simp

/-- Every found GitLab attachment URL is a regex match of the content. -/
theorem findGitLabAttachments_mem {content gitlabURL : Str} {a : GitLabAttachment}
    (h : a ∈ findGitLabAttachments content gitlabURL) :
    ∃ m ∈ findAllSubmatch (projectUploadPieces gitlabURL) content, a.URL = m.1 := by
  unfold findGitLabAttachments at h
  suffices haux : ∀ (ms : List (Str × List Str)) (st : List GitLabAttachment × List Str),
      a ∈ (ms.foldl (fun st m =>
        match m.2.get? 2 with
        | some filename =>
          if ¬ st.2.contains m.1 then (st.1 ++ [⟨m.1, filename⟩], st.2 ++ [m.1]) else st
        | none => st) st).1 →
      a ∈ st.1 ∨ ∃ m ∈ ms, a.URL = m.1 by
    rcases haux _ _ h with h' | h'
    · simp at h'
    · exact h'
  intro ms
  induction ms with
  | nil => intro st h'; exact Or.inl h'
  | cons m ms ih =>
    intro st h'
    rw [List.foldl_cons] at h'
    rcases ih _ h' with h'' | ⟨m', hm', he⟩
    · match hg : m.2.get? 2 with
      | some filename =>
        rw [hg] at h''
        dsimp only at h''
        by_cases hcond : st.2.contains m.1 = true
        · rw [if_neg (not_not_intro hcond)] at h''
          exact Or.inl h''
        · rw [if_pos hcond] at h''
          rcases List.mem_append.mp h'' with h3 | h3
          · exact Or.inl h3
          · rcases List.mem_singleton.mp h3 with rfl
            exact Or.inr ⟨m, List.mem_cons_self m ms, rfl⟩
      | none => rw [hg] at h''; exact Or.inl h''
    · exact Or.inr ⟨m', List.mem_cons_of_mem m hm', he⟩

/-- A found attachment URL occurs in the scanned content. -/
theorem findGitLabAttachments_containsSub {content gitlabURL : Str} {a : GitLabAttachment}
    (h : a ∈ findGitLabAttachments content gitlabURL) :
    containsSub content a.URL = true := by
  rcases findGitLabAttachments_mem h with ⟨m, hm, he⟩
  rcases findAllAux_infix (consumesOne_projectUpload gitlabURL) _ _ m hm with ⟨x, y, hxy⟩
  rw [he]
  exact containsSub_of_infix ⟨x, y, hxy⟩

-- Identity lemmas for `fixGitLabAttachmentURLs` on clean content.

/-- If a string contains `x ++ p`, it contains `p`. -/
theorem containsSub_append_left {s p : Str} (x : Str)
    (h : containsSub s (x ++ p) = true) : containsSub s p = true := by
  rcases (containsSub_iff _ _).mp h with ⟨a, b, hs⟩
  exact (containsSub_iff _ _).mpr ⟨a ++ x, b, by simp [hs]⟩

/-- `fixGitLabAttachmentURLs` is the identity on content free of every
pattern it rewrites and of the absolute-old-format URL. -/
theorem fixGitLabAttachmentURLs_id {content baseURL : Str} {projectID : Nat}
    (h1 : containsSub content (str "](/uploads/") = false)
    (h2 : containsSub content (str "=\"/uploads/") = false)
    (h3 : containsSub content (str "='/uploads/") = false)
    (h4 : containsSub content (baseURL ++ str "/uploads/") = false)
    (h5 : containsSub content (str "](/-/project/") = false)
    (h6 : containsSub content (str "=\"/-/project/") = false)
    (h7 : containsSub content (str "='/-/project/") = false) :
    fixGitLabAttachmentURLs content baseURL projectID = content := by
  unfold fixGitLabAttachmentURLs
  by_cases hc : content = []
  · rw [if_pos hc]
  · rw [if_neg hc]
    simp only
    rw [replaceAll_of_not_contains (by decide) h1,
        replaceAll_of_not_contains (by decide) h2,
        replaceAll_of_not_contains (by decide) h3]
    rw [show oldFormatPieces baseURL =
      [] ++ Piece.lit (baseURL ++ str "/uploads/") ::
        [Piece.cls hexLower .plus true, Piece.lit (str "/"),
         Piece.cls notDelim .plus true] from rfl]
    rw [replaceRegex_id_of_not_contains h4]
    rw [replaceAll_of_not_contains (by decide) h5,
        replaceAll_of_not_contains (by decide) h6,
        replaceAll_of_not_contains (by decide) h7]
    rw [h4]
    simp

/-- No attachments are found in content free of the literal
`"(slash)-(slash)project(slash)"` segment. -/
theorem findGitLabAttachments_nil {content gitlabURL : Str}
    (h : containsSub content (str "/-/project/") = false) :
    findGitLabAttachments content gitlabURL = [] := by
  unfold findGitLabAttachments
  rw [show projectUploadPieces gitlabURL =
    litGoURL gitlabURL ++ Piece.lit (str "/-/project/") ::
      [Piece.cls digitCh .plus true, Piece.lit (str "/uploads/"),
       Piece.cls hexLower .plus true, Piece.lit (str "/"),
       Piece.cls notDelim .plus true] from rfl]
  rw [findAllSubmatch_nil_of_not_contains h]
  rfl

/-- On content containing none of the rewritten patterns, the whole
GitLab-to-GitHub body processing is the identity. -/
theorem processGitLabToGitHub_id (env : GLEnv) {content baseURL : Str} {projectID : Nat}
    (gitlabToken githubToken githubSession gitlabSession githubOwner githubRepo : Str)
    (h1 : containsSub content (str "](/uploads/") = false)
    (h2 : containsSub content (str "=\"/uploads/") = false)
    (h3 : containsSub content (str "='/uploads/") = false)
    (h4 : containsSub content (baseURL ++ str "/uploads/") = false)
    (h8 : containsSub content (str "/-/project/") = false) :
    processGitLabToGitHub env content baseURL projectID gitlabToken githubToken
      githubSession gitlabSession githubOwner githubRepo = content := by
  have hmk : ∀ x : Str, containsSub content (x ++ str "/-/project/") = false := by
    intro x
    cases hcb : containsSub content (x ++ str "/-/project/") with
    | false => rfl
    | true =>
      have := containsSub_append_left x hcb
      rw [h8] at this
      cases this
  have h5 : containsSub content (str "](/-/project/") = false := hmk (str "](")
  have h6 : containsSub content (str "=\"/-/project/") = false := hmk (str "=\"")
  have h7 : containsSub content (str "='/-/project/") = false := hmk (str "='")
  unfold processGitLabToGitHub
  by_cases hc : content = []
  · rw [if_pos hc]
  · rw [if_neg hc]
    simp only [fixGitLabAttachmentURLs_id h1 h2 h3 h4 h5 h6 h7,
      findGitLabAttachments_nil h8]
    simp

-- Sniffer lemmas.

/-- Any byte slice starting with the 8-byte PNG signature is classified
`.png`. -/
theorem detectFileExtension_png (rest : List Nat) :
    detectFileExtension
      (0x89 :: 0x50 :: 0x4E :: 0x47 :: 0x0D :: 0x0A :: 0x1A :: 0x0A :: rest) =
      str ".png" := by
  unfold detectFileExtension
  rw [if_neg (by simp), if_neg (by simp), if_pos ⟨by simp, rfl⟩]

/-- Any byte slice of length at least 4 starting with `FF D8 FF` is
classified `.jpg` (a 4th byte must exist to pass the length guard). -/
theorem detectFileExtension_jpg (b : Nat) (rest : List Nat) :
    detectFileExtension (0xFF :: 0xD8 :: 0xFF :: b :: rest) = str ".jpg" := by
  unfold detectFileExtension
  rw [if_neg (by simp), if_pos ⟨by simp, rfl, rfl, rfl⟩]

/-- The empty slice gets no classification. -/
theorem detectFileExtension_empty : detectFileExtension [] = [] := rfl

/-- When no signature guard holds, the sniffer returns the empty
string. -/
theorem detectFileExtension_unknown {data : List Nat} (h : ¬ knownSignature data) :
    detectFileExtension data = [] := by
  simp only [knownSignature, not_or] at h
  obtain ⟨h1, h2, h3, h4, h5, h6, h7, h8, h9, h10, h11, h12, h13, h14, h15, h16, h17⟩ := h
  unfold detectFileExtension
  by_cases hl : data.length < 4
  · rw [if_pos hl]
  · rw [if_neg hl, if_neg h1, if_neg h2, if_neg h3, if_neg h4, if_neg h5, if_neg h6,
        if_neg h7, if_neg h8, if_neg h9, if_neg h10, if_neg h11, if_neg h12, if_neg h13,
        if_neg h14, if_neg h15, if_neg h16, if_neg h17]

-- The spec-side domain test for the download Authorization header (C7).

/-- The host part of an absolute URL: text after the scheme up to the
first slash. This is a SPEC-side definition (the words "belongs to the
source platform own domain"), to be compared with the substring test
the code performs. -/
def urlHostOf (url : Str) : Str :=
  let rest :=
    if (str "https://").isPrefixOf url then url.drop 8
    else if (str "http://").isPrefixOf url then url.drop 7
    else url
  rest.takeWhile (fun c => c ≠ '/')

/-- SPEC-side: the URL belongs to the `github.com` domain proper (the
host is `github.com` or a subdomain of it). -/
def specGitHubDomainURL (url : Str) : Bool :=
  decide (urlHostOf url = str "github.com") ||
    (str ".github.com").isSuffixOf (urlHostOf url)

theorem takeWhile_drop_infix (url : Str) (p : Char → Bool) (k : Nat) :
    ∃ a b, url = a ++ (url.drop k).takeWhile p ++ b := by
  refine ⟨url.take k, (url.drop k).dropWhile p, ?_⟩
  conv_rhs => rw [List.append_assoc, List.takeWhile_append_dropWhile, List.take_append_drop]

theorem urlHostOf_infix (url : Str) : ∃ a b, url = a ++ urlHostOf url ++ b := by
  unfold urlHostOf
  by_cases h8 : (str "https://").isPrefixOf url
  · simp only [h8, if_pos]
    exact takeWhile_drop_infix url _ 8
  · simp only [h8]
    by_cases h7 : (str "http://").isPrefixOf url
    · simp only [h7, if_pos, if_neg, Bool.false_eq_true, not_false_eq_true, if_false]
      exact takeWhile_drop_infix url _ 7
    · simp only [h7, Bool.false_eq_true, not_false_eq_true, if_false, if_neg]
      have := takeWhile_drop_infix url (fun c => c ≠ '/') 0
      rwa [List.drop_zero] at this

/-- A URL on the github.com domain proper contains the substring the
code actually tests for. -/
theorem specGitHubDomainURL_contains {url : Str}
    (h : specGitHubDomainURL url = true) :
    containsSub url (str "github.com") = true := by
  have hinf := urlHostOf_infix url
  simp only [specGitHubDomainURL, Bool.or_eq_true, decide_eq_true_eq] at h
  rcases h with h | h
  · refine containsSub_of_containsSub_infix hinf ?_
    rw [h]
    decide
  · rcases List.isSuffixOf_iff_suffix.mp h with ⟨t, ht⟩
    refine containsSub_of_containsSub_infix hinf ?_
    rw [← ht]
    refine containsSub_of_infix ⟨t ++ ['.'], [], ?_⟩
    rw [show str ".github.com" = '.' :: str "github.com" from rfl]
    simp

-- Decimal-rendering lemmas for the upload error messages (C8).

theorem digitChar10_mem (m : Nat) : digitChar10 m ∈ str "0123456789" := by
  unfold digitChar10
  split <;> decide

theorem natDigitsAux_chars : ∀ fuel n {c : Char}, c ∈ natDigitsAux fuel n →
    c ∈ str "0123456789" := by
  intro fuel
  induction fuel with
  | zero => intro n c h; cases h
  | succ f ih =>
    intro n c h
    simp only [natDigitsAux] at h
    split at h
    · rcases List.mem_singleton.mp h with rfl
      exact digitChar10_mem n
    · rcases List.mem_append.mp h with h | h
      · exact ih _ h
      · rcases List.mem_singleton.mp h with rfl
        exact digitChar10_mem _

theorem natDigits_chars {n : Nat} {c : Char} (h : c ∈ natDigits n) :
    c ∈ str "0123456789" := natDigitsAux_chars _ _ h

theorem natDigits_ne_nil (n : Nat) : natDigits n ≠ [] := by
  unfold natDigits natDigitsAux
  split <;> simp

/-- The dedicated 403 message never coincides with the generic failure
message, whatever the status and bodies. -/
theorem forbiddenMsg_ne_genericMsg (pid : Nat) (b : Str) (st : Nat) (b' : Str) :
    forbiddenMsg pid b ≠ genericMsg st b' := by
  intro he
  unfold forbiddenMsg genericMsg at he
  rw [show str "upload failed with status 403 Forbidden - Check that your GitLab token has \x27api\x27 scope and write access to project "
      = str "upload failed with status " ++
        ('4' :: '0' :: '3' :: ' ' ::
          str "Forbidden - Check that your GitLab token has \x27api\x27 scope and write access to project ")
      from rfl] at he
  simp only [List.append_assoc] at he
  have he2 := List.append_cancel_left he
  rw [show (str ": ") = ':' :: [' '] from rfl] at he2
  rcases hD : natDigits st with _ | ⟨d1, D1⟩
  · exact natDigits_ne_nil st hD
  · rw [hD] at he2
    rcases D1 with _ | ⟨d2, D2⟩
    · simp only [List.cons_append, List.nil_append, List.cons.injEq] at he2
      exact absurd he2.2.1 (by decide)
    · rcases D2 with _ | ⟨d3, D3⟩
      · simp only [List.cons_append, List.nil_append, List.cons.injEq] at he2
        exact absurd he2.2.2.1 (by decide)
      · rcases D3 with _ | ⟨d4, D4⟩
        · simp only [List.cons_append, List.nil_append, List.cons.injEq] at he2
          exact absurd he2.2.2.2.1 (by decide)
        · simp only [List.cons_append, List.nil_append, List.cons.injEq] at he2
          have hmem : d4 ∈ natDigits st := by rw [hD]; simp
          have hdig := natDigits_chars hmem
          rw [← he2.2.2.2.1] at hdig
          exact absurd hdig (by decide)

/-- The 403 message carries the actionable scope hint. -/
theorem forbiddenMsg_contains_hint (pid : Nat) (b : Str) :
    containsSub (forbiddenMsg pid b) (str "\x27api\x27 scope") = true := by
  unfold forbiddenMsg
  refine containsSub_of_containsSub_infix
    (t := str "upload failed with status 403 Forbidden - Check that your GitLab token has \x27api\x27 scope and write access to project ")
    ⟨[], natDigits pid ++ str ": " ++ b, by simp⟩ ?_
  decide

-- Single markdown-image pipeline result (C3).

theorem mdImg_norm (alt url : Str) :
    mdImg alt url = '!' :: '[' :: (alt ++ ']' :: '(' :: (url ++ [')'])) := by
  simp only [mdImg, List.append_assoc]
  rfl

theorem mem_mdImg {c : Char} {alt url : Str} :
    c ∈ mdImg alt url ↔
      (c = '!' ∨ c = '[' ∨ c ∈ alt ∨ c = ']' ∨ c = '(' ∨ c ∈ url ∨ c = ')') := by
  rw [mdImg_norm]
  simp

/-- A body that is exactly one well-formed markdown image whose upload
succeeds is rewritten to the same image pointing at the relativized
destination URL. -/
theorem processAttachments_single_image (env : AttachEnv) {alt url dest : Str}
    {projectID : Nat} {token baseURL sourceToken : Str}
    (ha : ∀ c ∈ alt, altOK c = true)
    (hap : ∀ c ∈ alt, c ≠ '(')
    (hu : ∀ c ∈ url, urlOK c = true)
    (hv : isValidURL url = true)
    (hs : attachSucceeds env ⟨url, [], true, mdImg alt url⟩ projectID token baseURL
      sourceToken = some dest) :
    processAttachments env (mdImg alt url) projectID token baseURL sourceToken =
      mdImg alt (relativizeGL dest) := by
  have hne : mdImg alt url ≠ [] := by
    rw [mdImg_norm]
    simp
  unfold processAttachments
  rw [if_neg hne, findAllAttachments_single ha hu hv]
  rw [if_neg (by simp)]
  have hmap : buildUrlMap env [⟨url, [], true, mdImg alt url⟩] projectID token baseURL
      sourceToken = [(url, ⟨url, dest, true, mdImg alt url⟩)] := by
    unfold buildUrlMap
    rw [List.foldl_cons, List.foldl_nil]
    unfold urlMapStep
    rw [hs]
    rfl
  rw [hmap]
  unfold rewriteWithMap
  rw [List.foldl_cons, List.foldl_nil]
  dsimp only
  have hlt : '<' ∉ mdImg alt url := by
    rw [mem_mdImg]
    rintro (h | h | h | h | h | h | h)
    · exact absurd h (by decide)
    · exact absurd h (by decide)
    · exact absurd ((altOK_spec (ha _ h)).2.1) (fun hne => hne rfl)
    · exact absurd h (by decide)
    · exact absurd h (by decide)
    · exact absurd ((urlOK_spec (hu _ h)).2.1) (fun hne => hne rfl)
    · exact absurd h (by decide)
  have hnimg : containsSub (mdImg alt url) (str "<img") = false := by
    rw [show str "<img" = '<' :: str "img" from rfl]
    exact containsSub_eq_false_of_head_not_mem hlt
  rw [hnimg]
  simp only [Bool.false_eq_true, if_false, if_true]
  have hA : ∀ c ∈ ('!' :: '[' :: (alt ++ [']'])), c ≠ '(' := by
    intro c hc
    simp only [List.mem_cons, List.mem_append, List.mem_singleton] at hc
    rcases hc with rfl | rfl | hc | rfl | h
    · decide
    · decide
    · exact hap c hc
    · decide
    · cases h
  rw [show mdImg alt url = ('!' :: '[' :: (alt ++ [']'])) ++ ('(' :: (url ++ [')'])) from by
    rw [mdImg_norm]; simp]
  rw [show str "(" ++ url ++ str ")" = '(' :: (url ++ [')']) from by
    simp only [List.append_assoc]; rfl]
  rw [show str "(" ++ relativizeGL dest ++ str ")" =
    '(' :: (relativizeGL dest ++ [')']) from by simp only [List.append_assoc]; rfl]
  rw [replaceAll_append_tail hA]
  rw [mdImg_norm]
  simp

-- ## Concrete oracles for witnesses and counterexamples

/-- Downloads always succeed; the GitLab upload succeeds only for the
filename `f.zip`. -/
def c1env : AttachEnv :=
  ⟨fun _ _ => .httpStatus 200 (.ok [1]),
   fun _ _ filename _ _ =>
     if filename = str "f.zip" then .ok (201, str "rb", .ok (str "/uploads/h1/f.zip"))
     else .error (str "fail")⟩

/-- Two markdown links whose URLs overlap as substrings. -/
def c1content : Str := str "[a](http://h/f.zip) [b](http://h/f.zip2)"

/-- Downloads and uploads always succeed. -/
def c3env : AttachEnv :=
  ⟨fun _ _ => .httpStatus 200 (.ok [1]),
   fun _ _ _ _ _ => .ok (201, str "rb", .ok (str "/uploads/h2/i.png"))⟩

/-- A markdown image plus a bare occurrence of the same URL. -/
def c3content : Str := str "![a](http://h/i.png) http://h/i.png"

/-- Every download and upload fails at the first step. -/
def c9failAttach : AttachEnv :=
  ⟨fun _ _ => .reqErr (str "x"), fun _ _ _ _ _ => .error (str "x")⟩

/-- GitLab downloads return 404; GitHub uploads fail. -/
def c4glenv : GLEnv :=
  ⟨fun _ _ => .httpStatus 404 (.ok []), fun _ _ _ => [], fun _ _ _ _ _ => .error (str "e")⟩

/-- A body with one relative GitLab upload reference. -/
def c4content : Str := str "![x](/uploads/ab/f.png)"

def c4gurl : Str := str "https://gl.example"

def c2issue : GHIssue :=
  ⟨[], str "t", str "hu", str "ul", str "c", str "u", str "open", false, [], []⟩

/-- Source fetch and issue creation succeed; listing comments fails. -/
def c2ghenv : GHGLEnv :=
  ⟨fun _ => .ok c2issue, fun _ _ _ _ => .ok ⟨7, str "nu"⟩, fun _ => .error (str "e"),
   fun _ _ => .ok (), c1env⟩

def c2glissue : GLIssue :=
  ⟨[], str "t", str "wu", str "au", str "c", str "u", str "opened", false, [], []⟩

def c2glenv : GLGHEnv :=
  ⟨fun _ => .ok c2glissue, fun _ _ _ _ => .ok ⟨9, str "gu"⟩, fun _ => .error (str "e"),
   fun _ _ => .ok (), c4glenv⟩

/-- A request listing the same issue ID twice. -/
def c2req : MigrationRequest := ⟨{}, {}, [1, 1]⟩

def c9comment : GHComment := ⟨str "u1", [], str "c", false, false, []⟩

/-- Fetch and creation succeed, but posting any comment fails. -/
def c9ghenv : GHGLEnv :=
  ⟨fun _ => .ok c2issue, fun _ _ _ _ => .ok ⟨7, str "nu"⟩, fun _ => .ok [c9comment],
   fun _ _ => .error (str "boom"), c9failAttach⟩

def c9note : GLNote := ⟨[], str "u1", str "c", false, false, []⟩

/-- Fetch and creation succeed, but posting any note comment fails. -/
def c9glenv : GLGHEnv :=
  ⟨fun _ => .ok c2glissue, fun _ _ _ _ => .ok ⟨9, str "gu"⟩, fun _ => .ok [c9note],
   fun _ _ => .error (str "boom"), c4glenv⟩

-- ## The claims

/-- C1 (amended): a failed attachment contributes no URL-map entry, the
loop continues with the remaining attachments, and when EVERY attachment
fails the body is returned byte-identical.  (The original per-URL
untouched-occurrence guarantee is refuted by `claim1_counterexample`:
a successful attachment whose URL is a prefix of the failed one rewrites
the failed URL's occurrences too.) -/
theorem claim1_amended (env : AttachEnv) (content : Str) (a : AttachmentInfo)
    (projectID : Nat) (token baseURL sourceToken : Str)
    (ha : a ∈ findAllAttachments content)
    (hf : attachSucceeds env a projectID token baseURL sourceToken = none) :
    (∀ inf, (a.URL, inf) ∉
      buildUrlMap env (findAllAttachments content) projectID token baseURL sourceToken) ∧
    (∀ atts : List AttachmentInfo,
      buildUrlMap env (a :: atts) projectID token baseURL sourceToken =
        buildUrlMap env atts projectID token baseURL sourceToken) ∧
    ((∀ b ∈ findAllAttachments content,
        attachSucceeds env b projectID token baseURL sourceToken = none) →
      processAttachments env content projectID token baseURL sourceToken = content) := by
  refine ⟨buildUrlMap_not_mem_of_fail ha hf, ?_, processAttachments_id_of_all_fail⟩
  intro atts
  unfold buildUrlMap
  rw [List.foldl_cons]
  have hstep : urlMapStep env projectID token baseURL sourceToken [] a = [] := by
    unfold urlMapStep
    rw [hf]
  rw [hstep]

/-- C1 counterexample: `http://h/f.zip2` fails its upload, yet its
occurrence is NOT left byte-for-byte unchanged — replacing the
successful `http://h/f.zip` also rewrites the other URL's prefix. -/
theorem claim1_counterexample :
    (∀ b ∈ findAllAttachments c1content, b.URL = str "http://h/f.zip2" →
      attachSucceeds c1env b 1 (str "t") (str "https://gl") (str "s") = none) ∧
    containsSub (processAttachments c1env c1content 1 (str "t") (str "https://gl") (str "s"))
      (str "http://h/f.zip2") = false := by decide

theorem claim1_witness :
    processAttachments c9failAttach (str "![a](http://h/i.png)") 1 (str "t") (str "b")
      (str "s") = str "![a](http://h/i.png)" :=
  (claim1_amended c9failAttach (str "![a](http://h/i.png)")
    ⟨str "http://h/i.png", [], true, str "![a](http://h/i.png)"⟩ 1 (str "t") (str "b")
    (str "s") (by decide) (by decide)).2.2 (by decide)

/-- C2 (amended): in both directions the success/failed list lengths sum
to the number of requested IDs, and — provided the requested IDs are
distinct — each requested identifier yields exactly one entry across the
two lists.  (Verbatim, the claim fails for duplicated request IDs:
`claim2_counterexample`.) -/
theorem claim2_amended (env : GHGLEnv) (env' : GLGHEnv) (req : MigrationRequest) :
    ((migrateGHtoGLWithFiles env req).success.length +
      (migrateGHtoGLWithFiles env req).failed.length = req.issueIDs.length) ∧
    ((migrateGLtoGHWithFiles env' req).success.length +
      (migrateGLtoGHWithFiles env' req).failed.length = req.issueIDs.length) ∧
    (req.issueIDs.Nodup → ∀ i ∈ req.issueIDs,
      (migrateGHtoGLWithFiles env req).success.countP (fun st => decide (st.originalID = i)) +
        (migrateGHtoGLWithFiles env req).failed.countP (fun st => decide (st.originalID = i))
        = 1) ∧
    (req.issueIDs.Nodup → ∀ i ∈ req.issueIDs,
      (migrateGLtoGHWithFiles env' req).success.countP (fun st => decide (st.originalID = i)) +
        (migrateGLtoGHWithFiles env' req).failed.countP (fun st => decide (st.originalID = i))
        = 1) := by
  have hgh := fold_ledger (ghglStep_shape env req) req.issueIDs ⟨[], []⟩
  have hgl := fold_ledger (glghStep_shape env' req) req.issueIDs ⟨[], []⟩
  refine ⟨?_, ?_, ?_, ?_⟩
  · simpa [migrateGHtoGLWithFiles] using hgh.1
  · simpa [migrateGLtoGHWithFiles] using hgl.1
  · intro hnd i hi
    have h2 := hgh.2 i
    rw [countP_eq_of_nodup _ hnd i, if_pos hi] at h2
    simpa [migrateGHtoGLWithFiles] using h2
  · intro hnd i hi
    have h2 := hgl.2 i
    rw [countP_eq_of_nodup _ hnd i, if_pos hi] at h2
    simpa [migrateGLtoGHWithFiles] using h2

/-- C2 counterexample: requesting `[1,1]` yields TWO success entries for
identifier 1, not exactly one. -/
theorem claim2_counterexample :
    (migrateGHtoGLWithFiles c2ghenv c2req).success.countP
      (fun st => decide (st.originalID = 1)) = 2 := by decide

theorem claim2_witness :
    ((migrateGHtoGLWithFiles c2ghenv ⟨{}, {}, [1, 2]⟩).success.length +
      (migrateGHtoGLWithFiles c2ghenv ⟨{}, {}, [1, 2]⟩).failed.length = 2) ∧
    ((migrateGLtoGHWithFiles c2glenv ⟨{}, {}, [1, 2]⟩).success.countP
        (fun st => decide (st.originalID = 1)) +
      (migrateGLtoGHWithFiles c2glenv ⟨{}, {}, [1, 2]⟩).failed.countP
        (fun st => decide (st.originalID = 1)) = 1) :=
  ⟨(claim2_amended c2ghenv c2glenv ⟨{}, {}, [1, 2]⟩).1,
   (claim2_amended c2ghenv c2glenv ⟨{}, {}, [1, 2]⟩).2.2.2 (by decide) 1 (by decide)⟩

/-- C3 (amended): for a body that is exactly one well-formed markdown
image whose download and upload succeed, the rewritten body is the same
image pointing at the relativized destination URL, contains zero
occurrences of the source URL, and exactly one occurrence of the mapped
destination URL.  (Verbatim, the claim fails when the source URL also
occurs outside the matched reference text: `claim3_counterexample` keeps
a bare occurrence of the source URL in the output.) -/
theorem claim3_amended (env : AttachEnv) (alt url dest : Str) (projectID : Nat)
    (token baseURL sourceToken : Str)
    (ha : ∀ c ∈ alt, altOK c = true)
    (ha2 : ∀ c ∈ alt, c ≠ '(' ∧ c ≠ '/' ∧ c ≠ ':')
    (hu : ∀ c ∈ url, urlOK c = true)
    (hv : isValidURL url = true)
    (hs : attachSucceeds env ⟨url, [], true, mdImg alt url⟩ projectID token baseURL
      sourceToken = some dest)
    (hpre : str "/uploads/" <+: relativizeGL dest)
    (hrc : ∀ c ∈ relativizeGL dest, c ≠ ':' ∧ c ≠ ')') :
    processAttachments env (mdImg alt url) projectID token baseURL sourceToken =
      mdImg alt (relativizeGL dest) ∧
    containsSub (mdImg alt (relativizeGL dest)) url = false ∧
    countOcc (mdImg alt (relativizeGL dest)) (relativizeGL dest) = 1 := by
  refine ⟨processAttachments_single_image env ha (fun c hc => (ha2 c hc).1) hu hv hs, ?_, ?_⟩
  · have hcol : ':' ∈ url := by
      simp only [isValidURL, Bool.or_eq_true] at hv
      rcases hv with hv | hv
      · rcases List.isPrefixOf_iff_prefix.mp hv with ⟨t, ht⟩
        rw [← ht]
        exact List.mem_append.mpr (Or.inl (by decide))
      · rcases List.isPrefixOf_iff_prefix.mp hv with ⟨t, ht⟩
        rw [← ht]
        exact List.mem_append.mpr (Or.inl (by decide))
    cases hctest : containsSub (mdImg alt (relativizeGL dest)) url with
    | false => rfl
    | true =>
      exfalso
      have hm := mem_of_containsSub hctest hcol
      rw [mem_mdImg] at hm
      rcases hm with h | h | h | h | h | h | h
      · exact absurd h (by decide)
      · exact absurd h (by decide)
      · exact (ha2 _ h).2.2 rfl
      · exact absurd h (by decide)
      · exact absurd h (by decide)
      · exact (hrc _ h).1 rfl
      · exact absurd h (by decide)
  · rcases hpre with ⟨r2, hr⟩
    have hrel : relativizeGL dest = '/' :: (str "uploads/" ++ r2) := by
      rw [← hr]
      rfl
    have hA : ∀ c ∈ ('!' :: '[' :: (alt ++ [']', '('])), c ≠ '/' := by
      intro c hc
      simp only [List.mem_cons, List.mem_append] at hc
      rcases hc with rfl | rfl | hc | rfl | rfl | h
      · decide
      · decide
      · exact (ha2 c hc).2.1
      · decide
      · decide
      · cases h
    rw [show mdImg alt (relativizeGL dest) =
      ('!' :: '[' :: (alt ++ [']', '('])) ++ (relativizeGL dest ++ [')']) from by
        rw [mdImg_norm]; simp]
    rw [hrel, countOcc_append_of_head _ hA]
    apply countOcc_self_append_singleton (by simp)
    rw [← hrel]
    intro hmem
    exact (hrc _ hmem).2 rfl

/-- C3 counterexample: every discovered attachment succeeds, yet a bare
occurrence of the source URL survives in the rewritten body. -/
theorem claim3_counterexample :
    ((findAllAttachments c3content).all
      (fun a => (attachSucceeds c3env a 1 (str "t") (str "https://gl") (str "s")).isSome))
      = true ∧
    containsSub (processAttachments c3env c3content 1 (str "t") (str "https://gl") (str "s"))
      (str "http://h/i.png") = true := by decide

theorem claim3_witness :
    processAttachments c3env (mdImg (str "a") (str "http://h/i.png")) 5 (str "tok")
        (str "https://gl") (str "stok") =
      mdImg (str "a") (relativizeGL (str "https://gl/uploads/h2/i.png")) ∧
    containsSub (mdImg (str "a") (relativizeGL (str "https://gl/uploads/h2/i.png")))
      (str "http://h/i.png") = false ∧
    countOcc (mdImg (str "a") (relativizeGL (str "https://gl/uploads/h2/i.png")))
      (relativizeGL (str "https://gl/uploads/h2/i.png")) = 1 :=
  claim3_amended c3env (str "a") (str "http://h/i.png") (str "https://gl/uploads/h2/i.png")
    5 (str "tok") (str "https://gl") (str "stok")
    (by decide) (by decide) (by decide) (by decide) (by decide)
    (List.isPrefixOf_iff_prefix.mp (by decide)) (by decide)

/-- C4 (amended): with an empty URL map the GitHub-to-GitLab rewriter
returns the body byte-identical; the GitLab-to-GitHub direction with no
uploads (empty GitHub session, hence an empty map) instead returns the
URL-NORMALIZED body `fixGitLabAttachmentURLs`, which can differ from the
original (`claim4_counterexample`). -/
theorem claim4_amended (env : AttachEnv) (env' : GLEnv) (content content' gitlabURL : Str)
    (projectID : Nat) (token baseURL sourceToken gt ght gs o r : Str)
    (hmap : buildUrlMap env (findAllAttachments content) projectID token baseURL
      sourceToken = []) :
    processAttachments env content projectID token baseURL sourceToken = content ∧
    rewriteWithMap content' [] = content' ∧
    processGitLabToGitHub env' content' gitlabURL projectID gt ght [] gs o r =
      fixGitLabAttachmentURLs content' gitlabURL projectID := by
  refine ⟨?_, rfl,
    processGitLabToGitHub_noSession env' content' gitlabURL projectID gt ght gs o r⟩
  unfold processAttachments
  by_cases hc : content = []
  · rw [if_pos hc]
  · rw [if_neg hc]
    by_cases hl : (findAllAttachments content).length = 0
    · simp only [hl, if_pos rfl]
      simp
    · simp only [if_neg hl]
      rw [hmap, rewriteWithMap_nil]

/-- C4 counterexample: the URL map stays empty (the 404 download skips
every attachment), yet the GitLab-to-GitHub processing does not return
the original body: the relative upload URL is rewritten to an absolute
project URL first. -/
theorem claim4_counterexample :
    (glLoopResult c4glenv (fixGitLabAttachmentURLs c4content c4gurl 7) c4gurl
      [] [] [] [] [] []).urlMap = [] ∧
    processGitLabToGitHub c4glenv c4content c4gurl 7 [] [] [] [] [] [] ≠ c4content := by
  decide

theorem claim4_witness :
    processAttachments c9failAttach (str "see ![b](http://h/b.png)") 2 (str "t") (str "u")
      (str "s") = str "see ![b](http://h/b.png)" ∧
    processGitLabToGitHub c4glenv (str "plain text") (str "g") 3 (str "gt") (str "ght") []
      (str "gs") (str "o") (str "r") = fixGitLabAttachmentURLs (str "plain text") (str "g") 3 :=
  ⟨(claim4_amended c9failAttach c4glenv (str "see ![b](http://h/b.png)") (str "plain text")
      (str "g") 2 (str "t") (str "u") (str "s") (str "gt") (str "ght") (str "gs") (str "o")
      (str "r") (by decide)).1,
   (claim4_amended c9failAttach c4glenv (str "see ![b](http://h/b.png)") (str "plain text")
      (str "g") 3 (str "t") (str "u") (str "s") (str "gt") (str "ght") (str "gs") (str "o")
      (str "r") (by decide)).2.2⟩

/-- C5 (confirmed): the scanner returns only absolute http(s) URLs, at
most one reference per distinct URL for any body, and on a body of
markdown images (with well-formed alt/url text) exactly one reference
per distinct URL, all with `IsImage = true`. -/
theorem claim5_scanner (content : Str) (ps : List BodyPiece) (hwf : WFBody ps) :
    (∀ a ∈ findAllAttachments content, isValidURL a.URL = true) ∧
    (∀ u : Str, (findAllAttachments content).countP (fun a => decide (a.URL = u)) ≤ 1) ∧
    (∀ a ∈ findAllAttachments (bodyOf ps), a.IsImage = true) ∧
    (∀ u : Str, (findAllAttachments (bodyOf ps)).countP (fun a => decide (a.URL = u)) =
      if u ∈ (imgsOf ps).map Prod.snd then 1 else 0) := by
  refine ⟨fun a ha => findAllAttachments_valid ha, ?_, ?_, ?_⟩
  · intro u
    rw [countP_eq_of_nodup_map u (findAllAttachments_nodup content)]
    split <;> omega
  · rw [findAllAttachments_body hwf]
    exact imgFold_isImage _ _ (by simp)
  · intro u
    have hiff : u ∈ (findAllAttachments (bodyOf ps)).map AttachmentInfo.URL ↔
        u ∈ (imgsOf ps).map Prod.snd := by
      rw [findAllAttachments_body hwf,
        imgFold_map_eq (imgsOf ps) ([], []) rfl,
        imgFold_seen_iff (imgsOf ps) (wfBody_imgs_valid ps hwf) ([], []) u]
      simp
    rw [countP_eq_of_nodup_map u (findAllAttachments_nodup (bodyOf ps))]
    by_cases hm : u ∈ (imgsOf ps).map Prod.snd
    · rw [if_pos (hiff.mpr hm), if_pos hm]
    · rw [if_neg (fun hx => hm (hiff.mp hx)), if_neg hm]

theorem claim5_witness :
    (findAllAttachments (bodyOf [BodyPiece.img (str "a") (str "http://h/i.png")])).countP
      (fun a => decide (a.URL = str "http://h/i.png")) =
    if str "http://h/i.png" ∈
        (imgsOf [BodyPiece.img (str "a") (str "http://h/i.png")]).map Prod.snd
    then 1 else 0 :=
  (claim5_scanner (str "x") [BodyPiece.img (str "a") (str "http://h/i.png")]
    (by exact ⟨by decide, by decide, by decide, trivial⟩)).2.2.2 (str "http://h/i.png")

/-- C6 (amended): an 8-byte PNG signature classifies `.png`; the 3-byte
JPEG signature classifies `.jpg` only when a 4th byte exists (the
`len < 4` guard otherwise returns `""` first: `claim6_counterexample`);
the empty slice and any slice matching no signature guard yield `""`. -/
theorem claim6_amended (rest rest2 : List Nat) (b : Nat) (data : List Nat)
    (h : ¬ knownSignature data) :
    detectFileExtension
      (0x89 :: 0x50 :: 0x4E :: 0x47 :: 0x0D :: 0x0A :: 0x1A :: 0x0A :: rest) = str ".png" ∧
    detectFileExtension (0xFF :: 0xD8 :: 0xFF :: b :: rest2) = str ".jpg" ∧
    detectFileExtension [] = [] ∧
    detectFileExtension data = [] :=
  ⟨detectFileExtension_png rest, detectFileExtension_jpg b rest2,
   detectFileExtension_empty, detectFileExtension_unknown h⟩

/-- C6 counterexample: a slice whose FIRST 3 bytes are the JPEG
signature but which is only 3 bytes long is not classified JPEG. -/
theorem claim6_counterexample :
    detectFileExtension [0xFF, 0xD8, 0xFF] ≠ str ".jpg" ∧
    detectFileExtension [0xFF, 0xD8, 0xFF] = [] := by decide

theorem claim6_witness :
    detectFileExtension
      (0x89 :: 0x50 :: 0x4E :: 0x47 :: 0x0D :: 0x0A :: 0x1A :: 0x0A :: ([] : List Nat)) =
      str ".png" ∧
    detectFileExtension (0xFF :: 0xD8 :: 0xFF :: 0 :: ([] : List Nat)) = str ".jpg" ∧
    detectFileExtension [] = [] ∧
    detectFileExtension [0] = [] :=
  claim6_amended [] [] 0 [0] (by
    intro hk
    simp only [knownSignature] at hk
    rcases hk with h|h|h|h|h|h|h|h|h|h|h|h|h|h|h|h|h <;> exact absurd h.1 (by decide))

/-- C7 (amended): the Authorization header is attached exactly when the
URL CONTAINS the substring `github.com` and the source token is
nonempty.  URLs on the github.com domain proper therefore do get the
header, but the test is not a domain check: a third-party URL merely
containing the substring also gets it (`claim7_counterexample`). -/
theorem claim7_amended (url tok : Str) :
    (specGitHubDomainURL url = true → tok ≠ [] →
      ghDownloadAuth url tok = some (str "Bearer " ++ tok)) ∧
    (containsSub url (str "github.com") = false → ghDownloadAuth url tok = none) ∧
    (tok = [] → ghDownloadAuth url tok = none) := by
  refine ⟨?_, ?_, ?_⟩
  · intro hd ht
    unfold ghDownloadAuth
    rw [specGitHubDomainURL_contains hd]
    match tok, ht with
    | c :: ts, _ => rfl
  · intro hn
    unfold ghDownloadAuth
    rw [hn]
    rfl
  · intro ht
    subst ht
    unfold ghDownloadAuth
    simp

/-- C7 counterexample: a URL on a third-party host that merely contains
`github.com` in its path is fetched WITH the bearer header. -/
theorem claim7_counterexample :
    ghDownloadAuth (str "https://evil.example/github.com/x") (str "t") =
      some (str "Bearer t") ∧
    specGitHubDomainURL (str "https://evil.example/github.com/x") = false := by decide

theorem claim7_witness :
    ghDownloadAuth (str "https://github.com/u/f.png") (str "t") =
      some (str "Bearer " ++ str "t") ∧
    ghDownloadAuth (str "http://cdn.example/i.png") (str "t") = none :=
  ⟨(claim7_amended (str "https://github.com/u/f.png") (str "t")).1 (by decide) (by decide),
   (claim7_amended (str "http://cdn.example/i.png") (str "t")).2.1 (by decide)⟩

/-- C8 (confirmed): any non-200/201 status yields an error, a 403 yields
the dedicated message carrying the `'api' scope` hint, any other
failing status yields the generic message, and the two messages never
coincide for any status and response bodies. -/
theorem claim8_upload_errors (projectID status : Nat) (baseURL respBody : Str)
    (parsed : Except Str Str) (h : status ≠ 201 ∧ status ≠ 200) :
    (∃ e, uploadFileToGitLab projectID baseURL status respBody parsed = .error e) ∧
    (status = 403 →
      uploadFileToGitLab projectID baseURL status respBody parsed =
        .error (forbiddenMsg projectID respBody)) ∧
    (status ≠ 403 →
      uploadFileToGitLab projectID baseURL status respBody parsed =
        .error (genericMsg status respBody)) ∧
    containsSub (forbiddenMsg projectID respBody) (str "\x27api\x27 scope") = true ∧
    (∀ st b', forbiddenMsg projectID respBody ≠ genericMsg st b') := by
  unfold uploadFileToGitLab
  rw [if_pos h]
  refine ⟨?_, ?_, ?_, forbiddenMsg_contains_hint projectID respBody,
    fun st b' => forbiddenMsg_ne_genericMsg projectID respBody st b'⟩
  · by_cases h403 : status = 403
    · rw [if_pos h403]
      exact ⟨_, rfl⟩
    · rw [if_neg h403]
      exact ⟨_, rfl⟩
  · intro h403
    rw [if_pos h403]
  · intro h403
    rw [if_neg h403]

theorem claim8_witness :
    uploadFileToGitLab 7 (str "b") 403 (str "r") (.ok (str "u")) =
      .error (forbiddenMsg 7 (str "r")) ∧
    uploadFileToGitLab 7 (str "b") 500 (str "r") (.ok (str "u")) =
      .error (genericMsg 500 (str "r")) :=
  ⟨(claim8_upload_errors 7 403 (str "b") (str "r") (.ok (str "u"))
      ⟨by decide, by decide⟩).2.1 rfl,
   (claim8_upload_errors 7 500 (str "b") (str "r") (.ok (str "u"))
      ⟨by decide, by decide⟩).2.2.1 (by decide)⟩

/-- C9 (confirmed): once the destination issue is created, the loop body
appends the issue to the success list with its new ID and URL, whatever
the comment/note listing and posting oracles do — comment failures never
produce a failed entry. -/
theorem claim9_comment_failure (env : GHGLEnv) (env' : GLGHEnv) (req : MigrationRequest)
    (acc acc' : MigrationResult) (i : Nat) (issue : GHIssue) (newIssue : GLNewIssue)
    (issue' : GLIssue) (newIssue' : GHNewIssue)
    (hgi : env.getIssue i = .ok issue)
    (hci : env.createIssue req.target.projectID issue.title (ghDescription env req issue)
      issue.labels = .ok newIssue)
    (hgi' : env'.getIssue i = .ok issue')
    (hci' : env'.createIssue issue'.title (glBody env' req issue') issue'.labels
      (if issue'.state.map Char.toLower = str "closed" then some (str "closed") else none) =
      .ok newIssue') :
    ghglStep env req acc i =
      { acc with success := acc.success ++
          [{ originalID := i, newID := newIssue.iid, newURL := newIssue.webURL }] } ∧
    glghStep env' req acc' i =
      { acc' with success := acc'.success ++
          [{ originalID := i, newID := newIssue'.number, newURL := newIssue'.htmlURL }] } := by
  constructor
  · simp only [ghglStep, hgi, hci]
  · simp only [glghStep, hgi', hci']

theorem claim9_witness :
    ghglStep c9ghenv c2req ⟨[], []⟩ 1 =
      ⟨[{ originalID := 1, newID := 7, newURL := str "nu" }], []⟩ ∧
    glghStep c9glenv c2req ⟨[], []⟩ 1 =
      ⟨[{ originalID := 1, newID := 9, newURL := str "gu" }], []⟩ :=
  claim9_comment_failure c9ghenv c9glenv c2req ⟨[], []⟩ ⟨[], []⟩ 1 c2issue ⟨7, str "nu"⟩
    c2glissue ⟨9, str "gu"⟩ rfl rfl rfl rfl

/-- C10 (confirmed): with an empty GitHub session no upload is ever
attempted, the URL map stays empty, the output body is exactly the
URL-normalized input, and every discovered attachment URL still occurs
in the output (links keep pointing at the GitLab host). -/
theorem claim10_no_session (env : GLEnv) (content gitlabURL : Str) (projectID : Nat)
    (gitlabToken githubToken gitlabSession githubOwner githubRepo : Str) :
    (glLoopResult env (fixGitLabAttachmentURLs content gitlabURL projectID) gitlabURL
      gitlabToken githubToken [] gitlabSession githubOwner githubRepo).uploadAttempts = [] ∧
    (glLoopResult env (fixGitLabAttachmentURLs content gitlabURL projectID) gitlabURL
      gitlabToken githubToken [] gitlabSession githubOwner githubRepo).urlMap = [] ∧
    processGitLabToGitHub env content gitlabURL projectID gitlabToken githubToken []
      gitlabSession githubOwner githubRepo =
      fixGitLabAttachmentURLs content gitlabURL projectID ∧
    (∀ a ∈ findGitLabAttachments (fixGitLabAttachmentURLs content gitlabURL projectID)
        gitlabURL,
      containsSub (processGitLabToGitHub env content gitlabURL projectID gitlabToken
        githubToken [] gitlabSession githubOwner githubRepo) a.URL = true) := by
  have hloop := glLoopResult_noSession env (fixGitLabAttachmentURLs content gitlabURL projectID)
    gitlabURL gitlabToken githubToken gitlabSession githubOwner githubRepo
  refine ⟨by rw [hloop], by rw [hloop],
    processGitLabToGitHub_noSession env content gitlabURL projectID gitlabToken githubToken
      gitlabSession githubOwner githubRepo, ?_⟩
  intro a ha
  rw [processGitLabToGitHub_noSession env content gitlabURL projectID gitlabToken githubToken
    gitlabSession githubOwner githubRepo]
  exact findGitLabAttachments_containsSub ha

theorem claim10_witness :
    containsSub (processGitLabToGitHub c4glenv c4content c4gurl 7 (str "gt") (str "ght") []
        (str "gs") (str "o") (str "r"))
      (str "https://gl.example/-/project/7/uploads/ab/f.png") = true :=
  (claim10_no_session c4glenv c4content c4gurl 7 (str "gt") (str "ght") (str "gs") (str "o")
    (str "r")).2.2.2
    ⟨str "https://gl.example/-/project/7/uploads/ab/f.png", str "f.png"⟩ (by decide)
